import Mathlib

/-!
Lane detection (`findlane.cpp`, `imageio.cpp`, `main.cpp`): embedding and properties.

The development embeds the numeric core of the lane detector:

* `moving_avg` and `calculate_coord` (free functions of `findlane.cpp`),
* the classifier loop and the averaging tail of `LaneDetector::draw_lines`,
* the argument list `LaneDetector::detect` hands to `cv::HoughLinesP`,
* the frame loop `VideoProcessor::execute` driven by the closure built in `main`.

Numbers.  A C++ `double` is embedded as `Dbl`: an IEEE-754 binary64 value, either
finite (carried as the rational it denotes) or one of `+inf`, `-inf`, `NaN`.  Every
arithmetic operation computes the exact rational result and rounds it once with
`Dbl.ofRat`: round to nearest, ties to even, 53-bit significand, gradual underflow
below `2^-1022`, overflow to infinity from `2^1024 - 2^970` on.  The model has one
zero, read as `+0.0`; every divisor the pipeline can make zero is the conversion of
an integer or of a vector size, which is `+0.0`.
A C++ `int` is embedded as `Int`; the `int` subtractions of the source wrap modulo
`2^32` (`wrap32`), and the conversion `int(double)` returns `Option Int`: it is
undefined when the truncated value is not representable in 32 bits.  Reading a
vector outside its bounds is undefined as well and is embedded as `none`.
-/

set_option linter.unusedVariables false

namespace ImageOCV

/-! The `double` model -/

/-- A value of C++ type `double`: a finite value, carried as the rational it denotes,
or one of the IEEE special values. -/
inductive Dbl where
  | fin (q : ℚ)
  | pinf
  | ninf
  | nan
deriving DecidableEq

namespace Dbl

/-- Round to the nearest integer, ties to the even one. -/
def rne (r : ℚ) : Int :=
  if r - ⌊r⌋ < 1 / 2 then ⌊r⌋
  else if 1 / 2 < r - ⌊r⌋ then ⌊r⌋ + 1
  else if ⌊r⌋ % 2 = 0 then ⌊r⌋ else ⌊r⌋ + 1

/-- Exponent of the unit in the last place of a positive value `a`: with
`2^E ≤ a < 2^(E+1)` it is `E - 52`, and `-1074` throughout the subnormal range. -/
def ulpExp (a : ℚ) : Int := max (Int.log 2 a) (-1022) - 52

/-- The unit in the last place of the binade of `a`. -/
def ulp (a : ℚ) : ℚ := (2 : ℚ) ^ ulpExp a

/-- The multiple of `ulp a` nearest to the magnitude `a` (ties to even). -/
def roundMag (a : ℚ) : ℚ := (rne (a / ulp a) : ℚ) * ulp a

/-- The `double` that an exact value `q` rounds to: nearest binary64 value, ties to
even; a magnitude that rounds to `2^1024` or more overflows to the infinity of its
sign. -/
def ofRat (q : ℚ) : Dbl :=
  if (2 : ℚ) ^ (1024 : Nat) ≤ roundMag |q| then (if 0 ≤ q then pinf else ninf)
  else if 0 ≤ q then fin (roundMag |q|) else fin (-roundMag |q|)

/-- Conversion `double(i)` of an integer. -/
def ofInt (i : Int) : Dbl := ofRat (i : ℚ)

/-- Conversion `double(n)` of an unsigned size. -/
def ofNat (n : Nat) : Dbl := ofRat (n : ℚ)

/-- IEEE addition: the exact sum rounded once; `inf + (-inf) = NaN`. -/
def add : Dbl → Dbl → Dbl
  | fin a, fin b => ofRat (a + b)
  | fin _, pinf => pinf
  | fin _, ninf => ninf
  | pinf, fin _ => pinf
  | pinf, pinf => pinf
  | pinf, ninf => nan
  | ninf, fin _ => ninf
  | ninf, pinf => nan
  | ninf, ninf => ninf
  | nan, _ => nan
  | fin _, nan => nan
  | pinf, nan => nan
  | ninf, nan => nan

/-- IEEE negation. -/
def neg : Dbl → Dbl
  | fin a => fin (-a)
  | pinf => ninf
  | ninf => pinf
  | nan => nan

/-- IEEE subtraction. -/
def sub (a b : Dbl) : Dbl := add a (neg b)

/-- The infinity with the sign of the rational `s` (`s` is not zero where this is used). -/
def signedInf (s : ℚ) : Dbl := if 0 < s then pinf else ninf

/-- IEEE multiplication: the exact product rounded once; `0 * inf = NaN`. -/
def mul : Dbl → Dbl → Dbl
  | fin a, fin b => ofRat (a * b)
  | fin a, pinf => if a = 0 then nan else signedInf a
  | fin a, ninf => if a = 0 then nan else signedInf (-a)
  | pinf, fin b => if b = 0 then nan else signedInf b
  | ninf, fin b => if b = 0 then nan else signedInf (-b)
  | pinf, pinf => pinf
  | pinf, ninf => ninf
  | ninf, pinf => ninf
  | ninf, ninf => pinf
  | nan, _ => nan
  | fin _, nan => nan
  | pinf, nan => nan
  | ninf, nan => nan

/-- IEEE division: the exact quotient rounded once when the divisor is not zero;
`0/0 = NaN`, `x/0 = ±inf` with the sign of `x` (the zero divisor is `+0.0`),
`x/±inf = 0`, `inf/inf = NaN`. -/
def div : Dbl → Dbl → Dbl
  | fin a, fin b => if b = 0 then (if a = 0 then nan else signedInf a) else ofRat (a / b)
  | fin _, pinf => fin 0
  | fin _, ninf => fin 0
  | pinf, fin b => if 0 ≤ b then pinf else ninf
  | ninf, fin b => if 0 ≤ b then ninf else pinf
  | pinf, pinf => nan
  | pinf, ninf => nan
  | ninf, pinf => nan
  | ninf, ninf => nan
  | nan, _ => nan
  | fin _, nan => nan
  | pinf, nan => nan
  | ninf, nan => nan

/-- IEEE comparison `a < b`; every comparison with `NaN` is false. -/
def lt : Dbl → Dbl → Bool
  | fin a, fin b => decide (a < b)
  | fin _, pinf => true
  | ninf, fin _ => true
  | ninf, pinf => true
  | _, _ => false

/-- IEEE comparison `a > b`. -/
def gt (a b : Dbl) : Bool := lt b a

/-- Truncation toward zero of a rational. -/
def trunc (q : ℚ) : Int := if 0 ≤ q then ⌊q⌋ else ⌈q⌉

/-- Smallest value of a 32-bit `int`. -/
def INT_MIN : Int := -2147483648

/-- Largest value of a 32-bit `int`. -/
def INT_MAX : Int := 2147483647

/-- Conversion `int(d)`: truncation toward zero, defined only when the truncated
value fits a 32-bit `int`; undefined on `inf` and `NaN`. -/
def toInt : Dbl → Option Int
  | fin q => if INT_MIN ≤ trunc q ∧ trunc q ≤ INT_MAX then some (trunc q) else none
  | _ => none

end Dbl

/-- The value of a 32-bit `int` operation whose exact result is `i`: two's complement
wrap-around into `[-2^31, 2^31)`. -/
def wrap32 (i : Int) : Int := (i + 2147483648) % 4294967296 - 2147483648

/-! `moving_avg` -/

/-- Conversion of the `int` window `N` to `size_t`, as the comparison
`values.size() > N` performs it (64-bit `size_t`). -/
def size_t_of_int (N : Int) : Nat := (N % 2 ^ 64).toNat

/-- Model of `std::accumulate(first, last, init)` over `values`; the iterators are positions
counted from `values.begin()`, and the sum is accumulated from left to right in
`double` arithmetic.  A range that leaves the vector is an out-of-bounds read:
`none`. -/
def accumulate (values : List Dbl) (first last : Int) (init : Dbl) : Option Dbl :=
  if 0 ≤ first ∧ first ≤ last ∧ last ≤ (values.length : Int) then
    some (((values.drop first.toNat).take (last - first).toNat).foldl Dbl.add init)
  else
    none

/-- Model of `double moving_avg(std::vector<double> &values, int N)`:
when the vector is longer than `N`, the LAST 30 entries are summed
(`values.end()-30`) and the sum is divided by `N`; otherwise all entries are summed
and divided by the size. -/
def moving_avg (values : List Dbl) (N : Int) : Option Dbl :=
  if size_t_of_int N < values.length then
    (accumulate values ((values.length : Int) - 30) values.length (Dbl.fin 0)).map
      (fun total => Dbl.div total (Dbl.ofInt N))
  else
    (accumulate values 0 values.length (Dbl.fin 0)).map
      (fun total => Dbl.div total (Dbl.ofNat values.length))

/-! `calculate_coord` -/

/-- A `cv::Vec4i`: four `int` components, indexed 0 to 3 in the source. -/
structure Vec4i where
  v0 : Int
  v1 : Int
  v2 : Int
  v3 : Int
deriving DecidableEq

/-- The expression `(1.0*y - intercept)/slope` of `calculate_coord`, in `double`
arithmetic: the product, the difference and the quotient are each rounded. -/
def coord_x (slope intercept : Dbl) (y : Int) : Dbl :=
  Dbl.div (Dbl.sub (Dbl.mul (Dbl.fin 1) (Dbl.ofInt y)) intercept) slope

/-- Model of `cv::Vec4i calculate_coord(double slope, double intercept, int rows, int cols)`.
The literal `0.65` is the `double` nearest to `13/20`.  Each `int(...)` conversion is
undefined out of range, so the result is an `Option`. -/
def calculate_coord (slope intercept : Dbl) (rows cols : Int) : Option Vec4i := do
  let y0 ← Dbl.toInt (Dbl.mul (Dbl.ofRat (13 / 20)) (Dbl.ofInt rows))
  let y1 := rows
  let x0 ← Dbl.toInt (coord_x slope intercept y0)
  let x1 ← Dbl.toInt (coord_x slope intercept y1)
  pure ⟨x0, y0, x1, y1⟩

/-! `LaneDetector` -/

/-- The named parameters of OpenCV's
`HoughLinesP(image, lines, rho, theta, threshold, minLineLength, maxLineGap)`. -/
structure HoughLinesPArgs where
  rho : Dbl
  theta : Dbl
  threshold : Int
  minLineLength : Dbl
  maxLineGap : Dbl
deriving DecidableEq

/-- Positional binding of a call `cv::HoughLinesP(out, lines, a3, a4, a5, a6, a7)`:
the third to seventh arguments are `rho`, `theta`, `threshold`, `minLineLength`
and `maxLineGap`, in this order. -/
def HoughLinesP_call (a3 a4 : Dbl) (a5 : Int) (a6 a7 : Dbl) : HoughLinesPArgs :=
  { rho := a3, theta := a4, threshold := a5, minLineLength := a6, maxLineGap := a7 }

/-- The data members of `class LaneDetector` (`findlane.hpp`) that the embedded code
uses: the edge and line parameters and the four histories. -/
structure LaneDetector where
  canny_low : Dbl
  canny_high : Dbl
  rho : Dbl
  theta : Dbl
  thr : Int
  left_slope : List Dbl
  left_intercept : List Dbl
  right_slope : List Dbl
  right_intercept : List Dbl
deriving DecidableEq

/-- OpenCV's constant `CV_PI` (`3.1415926535897932384626433832795`), as the `double`
this literal denotes: `884279719003555 / 2^48`. -/
def CV_PI : Dbl := Dbl.fin (884279719003555 / 281474976710656)

/-- A freshly constructed detector: the default member initialisers of `findlane.hpp`
and four empty vectors. -/
def LaneDetector.new : LaneDetector :=
  { canny_low := Dbl.fin 50
    canny_high := Dbl.fin 150
    rho := Dbl.fin 2
    theta := Dbl.div CV_PI (Dbl.ofInt 180)
    thr := 100
    left_slope := []
    left_intercept := []
    right_slope := []
    right_intercept := [] }

/-- The slope computed in the loop of `draw_lines`:
`m = double(segment[1]-segment[3])/double(segment[0]-segment[2])`; the two
differences are 32-bit `int` subtractions. -/
def segment_m (segment : Vec4i) : Dbl :=
  Dbl.div (Dbl.ofInt (wrap32 (segment.v1 - segment.v3)))
    (Dbl.ofInt (wrap32 (segment.v0 - segment.v2)))

/-- The intercept computed in the loop of `draw_lines`: `b = 1.0*segment[3] - m*segment[2]`. -/
def segment_b (segment : Vec4i) : Dbl :=
  Dbl.sub (Dbl.mul (Dbl.fin 1) (Dbl.ofInt segment.v3))
    (Dbl.mul (segment_m segment) (Dbl.ofInt segment.v2))

/-- One iteration of the classifier loop of `LaneDetector::draw_lines`
(`for (cv::Vec4i segment : lines)`), on `segment = (v0, v1, v2, v3)`; the literals
`0.2` and `-0.2` are the `double` nearest to `1/5` and its negation. -/
def classify_segment (d : LaneDetector) (segment : Vec4i) : LaneDetector :=
  let m := segment_m segment
  let b := segment_b segment
  if Dbl.gt m (Dbl.ofRat (1 / 5)) then
    { d with right_slope := d.right_slope ++ [m], right_intercept := d.right_intercept ++ [b] }
  else if Dbl.lt m (Dbl.neg (Dbl.ofRat (1 / 5))) then
    { d with left_slope := d.left_slope ++ [m], left_intercept := d.left_intercept ++ [b] }
  else
    d

/-- The whole classifier loop of `draw_lines`. -/
def classify (d : LaneDetector) (lines : List Vec4i) : LaneDetector :=
  lines.foldl classify_segment d

/-- The tail of `draw_lines` after the loop: the four `moving_avg(_, 30)` calls, the two
`calculate_coord` calls and the polygon `lane` handed to `cv::fillPoly` and
`cv::line`.  `none` when a step is undefined. -/
def lane_polygon (d : LaneDetector) (rows cols : Int) : Option (List (Int × Int)) := do
  let lavg_m ← moving_avg d.left_slope 30
  let ravg_m ← moving_avg d.right_slope 30
  let lavg_b ← moving_avg d.left_intercept 30
  let ravg_b ← moving_avg d.right_intercept 30
  let left ← calculate_coord lavg_m lavg_b rows cols
  let right ← calculate_coord ravg_m ravg_b rows cols
  pure [(left.v0, left.v1), (left.v2, left.v3), (right.v2, right.v3), (right.v0, right.v1)]

/-- Model of `LaneDetector::draw_lines(frame, out, lines)` for a frame of `rows` by
`cols` pixels: the detector after the loop (the `push_back`s are made before anything
else is computed) and the lane polygon that is drawn. -/
def draw_lines (d : LaneDetector) (rows cols : Int) (lines : List Vec4i) :
    LaneDetector × Option (List (Int × Int)) :=
  let d1 := classify d lines
  (d1, lane_polygon d1 rows cols)

/-- An input frame.  The pixel operations of `detect` (`filter_colors`, `apply_roi`,
`cvtColor`, `blur`, `Canny`, `HoughLinesP`) are OpenCV calls; a frame carries what
they yield on it: `segments args` is the vector `lines` that `cv::HoughLinesP`
fills when called with the parameters `args`. -/
structure Frame where
  rows : Int
  cols : Int
  segments : HoughLinesPArgs → List Vec4i

/-- The parameters with which `LaneDetector::detect` calls the line transform:
`cv::HoughLinesP(out, lines, rho, theta, thr, 100, 50)`. -/
def LaneDetector.hough_args (d : LaneDetector) : HoughLinesPArgs :=
  HoughLinesP_call d.rho d.theta d.thr (Dbl.ofInt 100) (Dbl.ofInt 50)

/-- Model of `LaneDetector::detect(frame, out)`. -/
def LaneDetector.detect (d : LaneDetector) (frame : Frame) :
    LaneDetector × Option (List (Int × Int)) :=
  draw_lines d frame.rows frame.cols (frame.segments d.hough_args)

/-! The frame loop -/

/-- What one call of the frame callback does to the lane state: the detector that
processes the frame as it is when `detect` starts, and as it is when `detect`
returns, with the polygon drawn. -/
structure FrameCall where
  seen : LaneDetector
  result : LaneDetector
  lane : Option (List (Int × Int))

/-- The closure `fcn` built in `main`: `LaneDetector detector; detector.detect(in, out);`.
The detector is a local variable of the closure body. -/
def main_fcn (frame : Frame) : FrameCall :=
  let detector := LaneDetector.new
  let r := detector.detect frame
  { seen := detector, result := r.1, lane := r.2 }

/-- Model of `VideoProcessor::execute`: `fcn` is called once on every frame of the
input stream, in order, until the stream yields an empty frame (the end of the list). -/
def execute (fcn : Frame → FrameCall) : List Frame → List FrameCall
  | [] => []
  | in_frame :: rest => fcn in_frame :: execute fcn rest

/-- The session run by `main`: `VideoProcessor processor(in, out, fcn); processor.execute();`. -/
def main_session (frames : List Frame) : List FrameCall :=
  execute main_fcn frames

/-! Reference definitions for the moving average -/

/-- The most recent `min N (length)` entries of a history. -/
def window (values : List Dbl) (N : Nat) : List Dbl :=
  values.drop (values.length - min N values.length)

/-- Arithmetic mean in `double` arithmetic: the entries are summed from left to right,
starting from `0.0`, and the sum is divided by their count. -/
def mean (xs : List Dbl) : Dbl :=
  Dbl.div (xs.foldl Dbl.add (Dbl.fin 0)) (Dbl.ofNat xs.length)

/-- The moving average as the specification words it: the arithmetic mean of the most
recent `min N (length)` entries (evaluated in `double` arithmetic). -/
def spec_moving_avg (values : List Dbl) (N : Nat) : Dbl :=
  mean (window values N)

/-- The tail of `draw_lines` with each `moving_avg(_, 30)` replaced by the mean of the
most recent `min 30 (length)` entries. -/
def spec_lane_polygon (d : LaneDetector) (rows cols : Int) : Option (List (Int × Int)) := do
  let left ← calculate_coord (spec_moving_avg d.left_slope 30)
    (spec_moving_avg d.left_intercept 30) rows cols
  let right ← calculate_coord (spec_moving_avg d.right_slope 30)
    (spec_moving_avg d.right_intercept 30) rows cols
  pure [(left.v0, left.v1), (left.v2, left.v3), (right.v2, right.v3), (right.v0, right.v1)]

/-! The lane-state invariant -/

/-- Every slope in the left history is below `-0.2` and every slope in the right
history is above `0.2` (IEEE comparisons). -/
def LaneState_inv (d : LaneDetector) : Prop :=
  (∀ v ∈ d.left_slope, Dbl.lt v (Dbl.fin (-(1 / 5))) = true) ∧
  (∀ v ∈ d.right_slope, Dbl.gt v (Dbl.fin (1 / 5)) = true)

/-- The detector after a sequence of `draw_lines` calls, each on a frame size
`(rows, cols)` and a segment list. -/
def run_draw_lines (d : LaneDetector) (calls : List (Int × Int × List Vec4i)) : LaneDetector :=
  calls.foldl (fun acc c => (draw_lines acc c.1 c.2.1 c.2.2).1) d

/-- The detector after `detect` has been called on each frame of a list in turn. -/
def run_detect (d : LaneDetector) (frames : List Frame) : LaneDetector :=
  frames.foldl (fun acc f => (acc.detect f).1) d

/-! Rounding lemmas -/

theorem rne_cases (r : ℚ) : Dbl.rne r = ⌊r⌋ ∨ Dbl.rne r = ⌊r⌋ + 1 := by
  unfold Dbl.rne
  split_ifs <;> simp

theorem rne_abs_sub_le (r : ℚ) : |((Dbl.rne r : Int) : ℚ) - r| ≤ 1 / 2 := by
  have h1 := Int.floor_le r
  have h2 := Int.lt_floor_add_one r
  unfold Dbl.rne
  rw [abs_le]
  split_ifs with ha hb hc <;> push_cast <;> constructor <;> linarith

theorem rne_intCast (n : Int) : Dbl.rne (n : ℚ) = n := by
  unfold Dbl.rne
  simp

theorem le_rne_of_le (r : ℚ) (n : Int) (h : (n : ℚ) ≤ r) : n ≤ Dbl.rne r := by
  have h1 : n ≤ ⌊r⌋ := Int.le_floor.mpr h
  rcases rne_cases r with h2 | h2 <;> omega

theorem rne_le_of_le (r : ℚ) (n : Int) (h : r ≤ (n : ℚ)) : Dbl.rne r ≤ n := by
  have h1 : ⌊r⌋ ≤ n := by
    have := Int.floor_le r
    have h3 : ((⌊r⌋ : Int) : ℚ) ≤ (n : ℚ) := le_trans this h
    exact_mod_cast h3
  rcases lt_or_eq_of_le h1 with h2 | h2
  · rcases rne_cases r with h3 | h3 <;> omega
  · have h4 : r = (n : ℚ) := by
      apply le_antisymm h
      rw [← h2]
      exact Int.floor_le r
    rw [h4, rne_intCast]

theorem ulp_pos (a : ℚ) : 0 < Dbl.ulp a := by
  unfold Dbl.ulp
  positivity

theorem log_eq_of_bounds (a : ℚ) (E : Int) (h1 : (2 : ℚ) ^ E ≤ a) (h2 : a < (2 : ℚ) ^ (E + 1)) :
    Int.log 2 a = E := by
  have hpos : 0 < a := lt_of_lt_of_le (by positivity) h1
  have h3 : E ≤ Int.log 2 a := by
    have := (Int.zpow_le_iff_le_log (b := 2) (by norm_num) (x := E) hpos).mp (by exact_mod_cast h1)
    exact this
  have h4 : Int.log 2 a < E + 1 := by
    have := (Int.lt_zpow_iff_log_lt (b := 2) (by norm_num) (x := E + 1) hpos).mp
      (by exact_mod_cast h2)
    exact this
  omega

theorem ulp_eq_of_bounds (a : ℚ) (E : Int) (h1 : (2 : ℚ) ^ E ≤ a) (h2 : a < (2 : ℚ) ^ (E + 1)) :
    Dbl.ulp a = (2 : ℚ) ^ (max E (-1022) - 52) := by
  unfold Dbl.ulp Dbl.ulpExp
  rw [log_eq_of_bounds a E h1 h2]

/-- In the normal range the unit in the last place is at most `2^-52` times the value. -/
theorem ulp_le_of_normal (a : ℚ) (h : (2 : ℚ) ^ (-1022 : Int) ≤ a) :
    Dbl.ulp a ≤ (2 : ℚ) ^ (-52 : Int) * a := by
  have hpos : 0 < a := lt_of_lt_of_le (by positivity) h
  have h3 : (-1022 : Int) ≤ Int.log 2 a :=
    (Int.zpow_le_iff_le_log (b := 2) (by norm_num) (x := -1022) hpos).mp (by exact_mod_cast h)
  have h4 : ((2 : ℕ) : ℚ) ^ Int.log 2 a ≤ a := Int.zpow_log_le_self (by norm_num) hpos
  unfold Dbl.ulp Dbl.ulpExp
  rw [max_eq_left h3, sub_eq_add_neg, zpow_add₀ (by norm_num : (2 : ℚ) ≠ 0), mul_comm]
  apply mul_le_mul_of_nonneg_left _ (by positivity)
  exact_mod_cast h4

theorem ulp_le (a : ℚ) (hpos : 0 < a) :
    Dbl.ulp a ≤ (2 : ℚ) ^ (-52 : Int) * a + (2 : ℚ) ^ (-1074 : Int) := by
  by_cases hn : (2 : ℚ) ^ (-1022 : Int) ≤ a
  · have := ulp_le_of_normal a hn
    have h2 : (0 : ℚ) < (2 : ℚ) ^ (-1074 : Int) := by positivity
    linarith
  · have h3 : Int.log 2 a < -1022 :=
      (Int.lt_zpow_iff_log_lt (b := 2) (by norm_num) (x := -1022) hpos).mp
        (by exact_mod_cast not_le.mp hn)
    unfold Dbl.ulp Dbl.ulpExp
    rw [max_eq_right (le_of_lt h3)]
    have h4 : (0 : ℚ) ≤ (2 : ℚ) ^ (-52 : Int) * a := by positivity
    have h5 : ((-1022 : Int) - 52) = -1074 := by norm_num
    rw [h5]
    linarith

theorem roundMag_zero : Dbl.roundMag 0 = 0 := by
  unfold Dbl.roundMag
  simp [Dbl.rne]

theorem roundMag_abs_sub_le (a : ℚ) : |Dbl.roundMag a - a| ≤ Dbl.ulp a / 2 := by
  have hu := ulp_pos a
  have h := rne_abs_sub_le (a / Dbl.ulp a)
  unfold Dbl.roundMag
  have e : ((Dbl.rne (a / Dbl.ulp a) : Int) : ℚ) * Dbl.ulp a - a =
      (((Dbl.rne (a / Dbl.ulp a) : Int) : ℚ) - a / Dbl.ulp a) * Dbl.ulp a := by
    field_simp
  rw [e, abs_mul, abs_of_pos hu]
  calc |((Dbl.rne (a / Dbl.ulp a) : Int) : ℚ) - a / Dbl.ulp a| * Dbl.ulp a
      ≤ 1 / 2 * Dbl.ulp a := mul_le_mul_of_nonneg_right h (le_of_lt hu)
    _ = Dbl.ulp a / 2 := by ring

theorem roundMag_nonneg (a : ℚ) (h : 0 ≤ a) : 0 ≤ Dbl.roundMag a := by
  have hu := ulp_pos a
  unfold Dbl.roundMag
  have h1 : (0 : Int) ≤ Dbl.rne (a / Dbl.ulp a) :=
    le_rne_of_le _ 0 (by simpa using div_nonneg h (le_of_lt hu))
  have h2 : (0 : ℚ) ≤ ((Dbl.rne (a / Dbl.ulp a) : Int) : ℚ) := by exact_mod_cast h1
  positivity

/-- Grid points of the binade of `a` below `a` stay below the rounded value. -/
theorem le_roundMag_of_grid (a : ℚ) (j : Int) (h : (j : ℚ) * Dbl.ulp a ≤ a) :
    (j : ℚ) * Dbl.ulp a ≤ Dbl.roundMag a := by
  have hu := ulp_pos a
  have h1 : (j : ℚ) ≤ a / Dbl.ulp a := (le_div_iff₀ hu).mpr h
  have h2 : j ≤ Dbl.rne (a / Dbl.ulp a) := le_rne_of_le _ j h1
  unfold Dbl.roundMag
  apply mul_le_mul_of_nonneg_right _ (le_of_lt hu)
  exact_mod_cast h2

/-- Grid points of the binade of `a` above `a` stay above the rounded value. -/
theorem roundMag_le_of_grid (a : ℚ) (j : Int) (h : a ≤ (j : ℚ) * Dbl.ulp a) :
    Dbl.roundMag a ≤ (j : ℚ) * Dbl.ulp a := by
  have hu := ulp_pos a
  have h1 : a / Dbl.ulp a ≤ (j : ℚ) := (div_le_iff₀ hu).mpr h
  have h2 : Dbl.rne (a / Dbl.ulp a) ≤ j := rne_le_of_le _ j h1
  unfold Dbl.roundMag
  apply mul_le_mul_of_nonneg_right _ (le_of_lt hu)
  exact_mod_cast h2

theorem roundMag_of_grid (a : ℚ) (j : Int) (h : a = (j : ℚ) * Dbl.ulp a) :
    Dbl.roundMag a = a :=
  le_antisymm (by rw [h]; exact h ▸ roundMag_le_of_grid a j (le_of_eq h))
    (by rw [h]; exact h ▸ le_roundMag_of_grid a j (le_of_eq h.symm))

/-- One rounding: relative error at most `2^-53`, or absolute error at most `2^-1075`
in the subnormal range. -/
theorem roundMag_err (a : ℚ) (h : 0 ≤ a) :
    |Dbl.roundMag a - a| ≤ (2 : ℚ) ^ (-53 : Int) * a + (2 : ℚ) ^ (-1075 : Int) := by
  rcases eq_or_lt_of_le h with h0 | hpos
  · rw [← h0, roundMag_zero]
    norm_num
  · have h1 := roundMag_abs_sub_le a
    have h2 := ulp_le a hpos
    have e1 : (2 : ℚ) ^ (-53 : Int) = (2 : ℚ) ^ (-52 : Int) / 2 := by norm_num
    have e2 : (2 : ℚ) ^ (-1075 : Int) = (2 : ℚ) ^ (-1074 : Int) / 2 := by norm_num
    have h3 : Dbl.ulp a / 2 ≤ ((2 : ℚ) ^ (-52 : Int) * a + (2 : ℚ) ^ (-1074 : Int)) / 2 :=
      div_le_div_of_nonneg_right h2 (by norm_num)
    have e3 : ((2 : ℚ) ^ (-52 : Int) * a + (2 : ℚ) ^ (-1074 : Int)) / 2 =
        (2 : ℚ) ^ (-52 : Int) / 2 * a + (2 : ℚ) ^ (-1074 : Int) / 2 := by ring
    rw [e1, e2, ← e3]
    exact le_trans h1 h3

theorem roundMag_err_normal (a : ℚ) (h : (2 : ℚ) ^ (-1022 : Int) ≤ a) :
    |Dbl.roundMag a - a| ≤ (2 : ℚ) ^ (-53 : Int) * a := by
  have h1 := roundMag_abs_sub_le a
  have h2 := ulp_le_of_normal a h
  have e1 : (2 : ℚ) ^ (-53 : Int) = (2 : ℚ) ^ (-52 : Int) / 2 := by norm_num
  have h3 : Dbl.ulp a / 2 ≤ ((2 : ℚ) ^ (-52 : Int) * a) / 2 :=
    div_le_div_of_nonneg_right h2 (by norm_num)
  have e3 : ((2 : ℚ) ^ (-52 : Int) * a) / 2 = (2 : ℚ) ^ (-52 : Int) / 2 * a := by ring
  rw [e1, ← e3]
  exact le_trans h1 h3

theorem ofRat_cases (q : ℚ) :
    ((2 : ℚ) ^ (1024 : Nat) ≤ Dbl.roundMag |q| ∧ 0 ≤ q ∧ Dbl.ofRat q = Dbl.pinf) ∨
    ((2 : ℚ) ^ (1024 : Nat) ≤ Dbl.roundMag |q| ∧ q < 0 ∧ Dbl.ofRat q = Dbl.ninf) ∨
    (Dbl.roundMag |q| < (2 : ℚ) ^ (1024 : Nat) ∧ 0 ≤ q ∧
      Dbl.ofRat q = Dbl.fin (Dbl.roundMag |q|)) ∨
    (Dbl.roundMag |q| < (2 : ℚ) ^ (1024 : Nat) ∧ q < 0 ∧
      Dbl.ofRat q = Dbl.fin (-Dbl.roundMag |q|)) := by
  unfold Dbl.ofRat
  by_cases h1 : (2 : ℚ) ^ (1024 : Nat) ≤ Dbl.roundMag |q|
  · by_cases h2 : 0 ≤ q
    · left
      exact ⟨h1, h2, by rw [if_pos h1, if_pos h2]⟩
    · right; left
      exact ⟨h1, not_le.mp h2, by rw [if_pos h1, if_neg h2]⟩
  · by_cases h2 : 0 ≤ q
    · right; right; left
      exact ⟨not_le.mp h1, h2, by rw [if_neg h1, if_pos h2]⟩
    · right; right; right
      exact ⟨not_le.mp h1, not_le.mp h2, by rw [if_neg h1, if_neg h2]⟩

theorem ofRat_ne_nan (q : ℚ) : Dbl.ofRat q ≠ Dbl.nan := by
  rcases ofRat_cases q with h | h | h | h <;> rw [h.2.2] <;> simp

/-- A finite result of one rounding is within half a unit in the last place. -/
theorem ofRat_fin_err (q r : ℚ) (h : Dbl.ofRat q = Dbl.fin r) :
    |r - q| ≤ (2 : ℚ) ^ (-53 : Int) * |q| + (2 : ℚ) ^ (-1075 : Int) := by
  have he := roundMag_err |q| (abs_nonneg q)
  rcases ofRat_cases q with h1 | h1 | h1 | h1
  · rw [h1.2.2] at h
    exact absurd h (by simp)
  · rw [h1.2.2] at h
    exact absurd h (by simp)
  · rw [h1.2.2] at h
    injection h with h
    rw [← h]
    have e : |q| = q := abs_of_nonneg h1.2.1
    rw [e] at he ⊢
    exact he
  · rw [h1.2.2] at h
    injection h with h
    rw [← h]
    have e : |q| = -q := abs_of_neg h1.2.1
    have e2 : -Dbl.roundMag |q| - q = -(Dbl.roundMag |q| - |q|) := by
      rw [e]
      ring
    rw [e2, abs_neg]
    exact he

theorem ofRat_neg (q : ℚ) : Dbl.ofRat (-q) = Dbl.neg (Dbl.ofRat q) := by
  rcases lt_trichotomy q 0 with hq | hq | hq
  · have h1 : ¬ (0 ≤ q) := not_le.mpr hq
    have h2 : (0 : ℚ) ≤ -q := by linarith
    unfold Dbl.ofRat
    rw [abs_neg]
    by_cases h : (2 : ℚ) ^ (1024 : Nat) ≤ Dbl.roundMag |q|
    · simp only [if_pos h, if_pos h2, if_neg h1, Dbl.neg]
    · simp only [if_neg h, if_pos h2, if_neg h1, Dbl.neg, neg_neg]
  · subst hq
    have h0 : Dbl.ofRat 0 = Dbl.fin 0 := by
      unfold Dbl.ofRat
      simp [roundMag_zero]
    rw [neg_zero, h0]
    simp [Dbl.neg]
  · have h1 : ¬ (0 ≤ -q) := by
      intro h
      linarith
    have h2 : (0 : ℚ) ≤ q := le_of_lt hq
    unfold Dbl.ofRat
    rw [abs_neg]
    by_cases h : (2 : ℚ) ^ (1024 : Nat) ≤ Dbl.roundMag |q|
    · simp only [if_pos h, if_pos h2, if_neg h1, Dbl.neg]
    · simp only [if_neg h, if_pos h2, if_neg h1, Dbl.neg]

theorem ofRat_of_roundMag_eq (q : ℚ) (h : Dbl.roundMag |q| = |q|)
    (hlt : |q| < (2 : ℚ) ^ (1024 : Nat)) : Dbl.ofRat q = Dbl.fin q := by
  unfold Dbl.ofRat
  rw [h, if_neg (not_le.mpr hlt)]
  by_cases hq : 0 ≤ q
  · rw [if_pos hq, abs_of_nonneg hq]
  · rw [if_neg hq, abs_of_neg (not_le.mp hq), neg_neg]

theorem ofRat_zero : Dbl.ofRat 0 = Dbl.fin 0 := by
  apply ofRat_of_roundMag_eq
  · rw [abs_zero, roundMag_zero]
  · rw [abs_zero]
    positivity

/-- Every value `n * 2^e` with a 53-bit `n` and an exponent in the binary64 range is
a double: rounding leaves it unchanged. -/
theorem ofRat_rep (n e : Int) (hn : |n| < 2 ^ 53) (he1 : -1074 ≤ e) (he2 : e ≤ 971) :
    Dbl.ofRat ((n : ℚ) * (2 : ℚ) ^ e) = Dbl.fin ((n : ℚ) * (2 : ℚ) ^ e) := by
  by_cases hn0 : n = 0
  · subst hn0
    simp [ofRat_zero]
  have h2e : (0 : ℚ) < (2 : ℚ) ^ e := by positivity
  have habs : |(n : ℚ) * (2 : ℚ) ^ e| = ((|n| : Int) : ℚ) * (2 : ℚ) ^ e := by
    rw [abs_mul, abs_of_pos h2e, Int.cast_abs]
  have hnpos : (0 : ℚ) < ((|n| : Int) : ℚ) := by
    have : 0 < |n| := abs_pos.mpr hn0
    exact_mod_cast this
  have hA : (0 : ℚ) < ((|n| : Int) : ℚ) * (2 : ℚ) ^ e := by positivity
  have hn53 : ((|n| : Int) : ℚ) < (2 : ℚ) ^ (53 : Int) := by
    have h : ((|n| : Int) : ℚ) < ((2 ^ 53 : Int) : ℚ) := by exact_mod_cast hn
    have e53 : ((2 ^ 53 : Int) : ℚ) = (2 : ℚ) ^ (53 : Int) := by norm_num
    rw [e53] at h
    exact h
  have hlt : ((|n| : Int) : ℚ) * (2 : ℚ) ^ e < (2 : ℚ) ^ (53 + e) := by
    rw [zpow_add₀ (by norm_num : (2 : ℚ) ≠ 0)]
    exact mul_lt_mul_of_pos_right hn53 h2e
  have hL : Int.log 2 (((|n| : Int) : ℚ) * (2 : ℚ) ^ e) < 53 + e :=
    (Int.lt_zpow_iff_log_lt (b := 2) (by norm_num) (x := 53 + e) hA).mp (by exact_mod_cast hlt)
  have hexp : Dbl.ulpExp (((|n| : Int) : ℚ) * (2 : ℚ) ^ e) ≤ e := by
    unfold Dbl.ulpExp
    have : max (Int.log 2 (((|n| : Int) : ℚ) * (2 : ℚ) ^ e)) (-1022) ≤ e + 52 :=
      max_le (by omega) (by omega)
    omega
  have hgrid : ((|n| : Int) : ℚ) * (2 : ℚ) ^ e =
      ((|n| * 2 ^ (e - Dbl.ulpExp (((|n| : Int) : ℚ) * (2 : ℚ) ^ e)).toNat : Int) : ℚ) *
        Dbl.ulp (((|n| : Int) : ℚ) * (2 : ℚ) ^ e) := by
    unfold Dbl.ulp
    generalize Dbl.ulpExp (((|n| : Int) : ℚ) * (2 : ℚ) ^ e) = x at hexp ⊢
    have hd : (((e - x).toNat : Nat) : Int) = e - x := Int.toNat_of_nonneg (by omega)
    push_cast
    rw [mul_assoc, ← zpow_natCast, hd, ← zpow_add₀ (by norm_num : (2 : ℚ) ≠ 0)]
    congr 2
    ring
  apply ofRat_of_roundMag_eq
  · rw [habs]
    exact roundMag_of_grid _ _ hgrid
  · rw [habs]
    have h1024 : (2 : ℚ) ^ (53 + e) ≤ (2 : ℚ) ^ ((1024 : Nat) : Int) :=
      zpow_le_zpow_right₀ (by norm_num) (by omega)
    rw [zpow_natCast] at h1024
    exact lt_of_lt_of_le hlt h1024

theorem ofRat_intCast (n : Int) (hn : |n| < 2 ^ 53) : Dbl.ofRat (n : ℚ) = Dbl.fin (n : ℚ) := by
  have h := ofRat_rep n 0 hn (by norm_num) (by norm_num)
  simpa using h

theorem ofRat_natCast (n : Nat) (hn : n < 2 ^ 53) : Dbl.ofRat (n : ℚ) = Dbl.fin (n : ℚ) := by
  have h := ofRat_intCast (n : Int) (by rw [abs_of_nonneg (by positivity)]; exact_mod_cast hn)
  simpa using h

theorem ofRat_one : Dbl.ofRat 1 = Dbl.fin 1 := by
  simpa using ofRat_natCast 1 (by norm_num)

theorem ofRat_ofNat (n : Nat) (hn : n < 9007199254740992) :
    Dbl.ofRat (no_index (OfNat.ofNat n)) = Dbl.fin (OfNat.ofNat n) :=
  ofRat_natCast n (by norm_num; exact hn)

/-- Evaluation of one rounding of a positive value whose binade `[2^E, 2^(E+1))` and
nearest grid point `k * u` are given. -/
theorem ofRat_eval_pos (q u : ℚ) (E k : Int) (h1 : (2 : ℚ) ^ E ≤ q) (h2 : q < (2 : ℚ) ^ (E + 1))
    (hu : u = (2 : ℚ) ^ (max E (-1022) - 52)) (hk : Dbl.rne (q / u) = k)
    (hfin : (k : ℚ) * u < (2 : ℚ) ^ (1024 : Nat)) : Dbl.ofRat q = Dbl.fin ((k : ℚ) * u) := by
  have hpos : 0 < q := lt_of_lt_of_le (by positivity) h1
  have hulp : Dbl.ulp q = u := by rw [ulp_eq_of_bounds q E h1 h2, hu]
  have hmag : Dbl.roundMag q = (k : ℚ) * u := by
    unfold Dbl.roundMag
    rw [hulp, hk]
  unfold Dbl.ofRat
  rw [abs_of_pos hpos, hmag, if_neg (not_le.mpr hfin), if_pos (le_of_lt hpos)]

theorem lt_overflow_of_lt (x : ℚ) (h : x < (2 : ℚ) ^ (64 : Nat)) :
    x < (2 : ℚ) ^ (1024 : Nat) :=
  lt_of_lt_of_le h (pow_le_pow_right₀ (by norm_num) (by norm_num))

/-! Evaluation lemmas -/

theorem ofRat_neg_ofNat (n : Nat) (hn : n < 9007199254740992) :
    Dbl.ofRat (-(no_index (OfNat.ofNat n))) = Dbl.fin (-(OfNat.ofNat n)) := by
  rw [ofRat_neg, ofRat_ofNat n hn]
  rfl

theorem ofRat_neg_one : Dbl.ofRat (-1) = Dbl.fin (-1) := by
  rw [ofRat_neg, ofRat_one]
  rfl

theorem ofRat_half : Dbl.ofRat (1 / 2) = Dbl.fin (1 / 2) := by
  have h := ofRat_rep 1 (-1) (by norm_num) (by norm_num) (by norm_num)
  norm_num at h
  simpa using h

theorem ofRat_neg_half : Dbl.ofRat (-(1 / 2)) = Dbl.fin (-(1 / 2)) := by
  rw [ofRat_neg, ofRat_half]
  rfl

theorem ofRat_five_halves : Dbl.ofRat (5 / 2) = Dbl.fin (5 / 2) := by
  have h := ofRat_rep 5 (-1) (by norm_num) (by norm_num) (by norm_num)
  norm_num at h
  simpa using h

theorem ofRat_fifth :
    Dbl.ofRat (1 / 5) = Dbl.fin (3602879701896397 / 18014398509481984) := by
  have h := ofRat_eval_pos (1 / 5) (1 / 36028797018963968) (-3) 7205759403792794
    (by norm_num) (by norm_num) (by norm_num) (by norm_num [Dbl.rne])
    (lt_overflow_of_lt _ (by norm_num))
  norm_num at h ⊢
  exact h

theorem div_nan (x : Dbl) : Dbl.div x Dbl.nan = Dbl.nan := by
  cases x <;> rfl

theorem gt_fifth_of_gt_lit (v : Dbl) (h : Dbl.gt v (Dbl.ofRat (1 / 5)) = true) :
    Dbl.gt v (Dbl.fin (1 / 5)) = true := by
  rw [ofRat_fifth] at h
  cases v with
  | fin a =>
    simp only [Dbl.gt, Dbl.lt, decide_eq_true_eq] at h ⊢
    have : (1 / 5 : ℚ) < 3602879701896397 / 18014398509481984 := by norm_num
    linarith
  | pinf => rfl
  | ninf => exact absurd h (by simp [Dbl.gt, Dbl.lt])
  | nan => exact absurd h (by simp [Dbl.gt, Dbl.lt])

theorem lt_fifth_of_lt_lit (v : Dbl) (h : Dbl.lt v (Dbl.neg (Dbl.ofRat (1 / 5))) = true) :
    Dbl.lt v (Dbl.fin (-(1 / 5))) = true := by
  rw [ofRat_fifth] at h
  cases v with
  | fin a =>
    simp only [Dbl.neg, Dbl.lt, decide_eq_true_eq] at h ⊢
    have : (1 / 5 : ℚ) < 3602879701896397 / 18014398509481984 := by norm_num
    linarith
  | pinf => exact absurd h (by simp [Dbl.neg, Dbl.lt])
  | ninf => rfl
  | nan => exact absurd h (by simp [Dbl.neg, Dbl.lt])

/-! The moving average with the window 30 -/

theorem moving_avg_30_eq (values : List Dbl) :
    moving_avg values 30 = some (spec_moving_avg values 30) := by
  have hs : size_t_of_int 30 = 30 := by decide
  unfold moving_avg spec_moving_avg mean window accumulate
  rw [hs]
  by_cases hlt : 30 < values.length
  · have h1 : (0 : Int) ≤ (values.length : Int) - 30 := by omega
    have h2 : ((values.length : Int) - 30).toNat = values.length - 30 := by omega
    have h3 : ((values.length : Int) - ((values.length : Int) - 30)).toNat = 30 := by omega
    have h4 : min 30 values.length = 30 := by omega
    have h5 : (values.drop (values.length - 30)).length = 30 := by
      rw [List.length_drop]; omega
    have h6 : (values.drop (values.length - 30)).take 30 = values.drop (values.length - 30) := by
      rw [List.take_of_length_le (le_of_eq h5)]
    simp [hlt, h1, h2, h3, h4, h5, h6, Dbl.ofInt, Dbl.ofNat]
  · have h4 : min 30 values.length = values.length := by omega
    simp [hlt, h4]

/-! Claims on `moving_avg` -/

/-- C1: on a history of 31 entries equal to 1 and the window `N = 2`, the source sums
the last 30 entries and divides by 2, returning 15, while the mean of the last two
entries is 1; on the history `1, 2, 3` with `N = 2` the source reads 30 entries back
from the end, outside the vector. -/
theorem moving_avg_ignores_window :
    moving_avg (List.replicate 31 (Dbl.fin 1)) 2 = some (Dbl.fin 15) ∧
    spec_moving_avg (List.replicate 31 (Dbl.fin 1)) 2 = Dbl.fin 1 ∧
    moving_avg [Dbl.fin 1, Dbl.fin 2, Dbl.fin 3] 2 = none ∧
    spec_moving_avg [Dbl.fin 1, Dbl.fin 2, Dbl.fin 3] 2 = Dbl.fin (5 / 2) := by
  refine ⟨?_, ?_, ?_, ?_⟩
  · simp [moving_avg, size_t_of_int, accumulate, List.replicate]
    norm_num [Dbl.div, Dbl.ofInt, Dbl.add, ofRat_zero, ofRat_one, ofRat_ofNat]
  · norm_num [spec_moving_avg, window, mean, Dbl.div, Dbl.ofNat, Dbl.add, List.replicate,
      ofRat_zero, ofRat_one, ofRat_ofNat]
  · norm_num [moving_avg, size_t_of_int, accumulate]
  · norm_num [spec_moving_avg, window, mean, Dbl.div, Dbl.ofNat, Dbl.add,
      ofRat_zero, ofRat_one, ofRat_ofNat, ofRat_five_halves]

/-- C7: after appending `2` to the history `1`, the query with window 1 reads 30
entries back from the end of a vector of two (outside the vector); after appending
`7` to a history of thirty entries equal to 1, the query with window 1 returns the
sum of the last thirty entries, 36, not the newest value 7. -/
theorem moving_avg_window_one_after_append :
    moving_avg ([Dbl.fin 1] ++ [Dbl.fin 2]) 1 = none ∧
    moving_avg (List.replicate 30 (Dbl.fin 1) ++ [Dbl.fin 7]) 1 = some (Dbl.fin 36) := by
  refine ⟨?_, ?_⟩
  · norm_num [moving_avg, size_t_of_int, accumulate]
  · simp [moving_avg, size_t_of_int, accumulate, List.replicate]
    norm_num [Dbl.div, Dbl.ofInt, Dbl.add, ofRat_zero, ofRat_one, ofRat_ofNat]

/-! Claims on the classifier loop: vertical segments -/

/-- C3: a vertical segment is not discarded.  On `(5,0,5,10)` the loop divides `-10` by
`0.0`, obtains `-inf`, finds it below `-0.2` and appends `-inf` and `+inf` to the left
histories; on `(5,10,5,0)` it appends `+inf` and `-inf` to the right histories.  Only
the zero-length segment `(5,5,5,5)`, whose slope is `NaN`, leaves the histories
alone. -/
theorem vertical_segment_is_appended :
    segment_m ⟨5, 0, 5, 10⟩ = Dbl.ninf ∧
    classify_segment LaneDetector.new ⟨5, 0, 5, 10⟩ =
      { LaneDetector.new with left_slope := [Dbl.ninf], left_intercept := [Dbl.pinf] } ∧
    classify_segment LaneDetector.new ⟨5, 10, 5, 0⟩ =
      { LaneDetector.new with right_slope := [Dbl.pinf], right_intercept := [Dbl.ninf] } ∧
    classify_segment LaneDetector.new ⟨5, 5, 5, 5⟩ = LaneDetector.new := by
  refine ⟨?_, ?_, ?_, ?_⟩ <;>
    norm_num [classify_segment, segment_m, segment_b, wrap32, LaneDetector.new, Dbl.ofInt,
      Dbl.div, Dbl.mul, Dbl.sub, Dbl.neg, Dbl.add, Dbl.gt, Dbl.lt, Dbl.signedInf,
      ofRat_zero, ofRat_one, ofRat_ofNat, ofRat_neg_ofNat, ofRat_fifth]

/-! The invariant of the histories -/

theorem classify_segment_inv (d : LaneDetector) (segment : Vec4i) (h : LaneState_inv d) :
    LaneState_inv (classify_segment d segment) := by
  unfold classify_segment
  by_cases hgt : Dbl.gt (segment_m segment) (Dbl.ofRat (1 / 5)) = true
  · simp only [hgt, if_true]
    refine ⟨h.1, ?_⟩
    intro v hv
    rcases List.mem_append.mp hv with hv | hv
    · exact h.2 v hv
    · rw [List.mem_singleton.mp hv]
      exact gt_fifth_of_gt_lit _ hgt
  · by_cases hlt : Dbl.lt (segment_m segment) (Dbl.neg (Dbl.ofRat (1 / 5))) = true
    · simp only [hgt, hlt, if_true]
      refine ⟨?_, h.2⟩
      intro v hv
      rcases List.mem_append.mp hv with hv | hv
      · exact h.1 v hv
      · rw [List.mem_singleton.mp hv]
        exact lt_fifth_of_lt_lit _ hlt
    · simp only [hgt, hlt]
      exact h

theorem classify_inv (lines : List Vec4i) (d : LaneDetector) (h : LaneState_inv d) :
    LaneState_inv (classify d lines) := by
  induction lines generalizing d with
  | nil => exact h
  | cons segment rest ih =>
    exact ih (classify_segment d segment) (classify_segment_inv d segment h)

theorem run_draw_lines_inv (calls : List (Int × Int × List Vec4i)) (d : LaneDetector)
    (h : LaneState_inv d) : LaneState_inv (run_draw_lines d calls) := by
  induction calls generalizing d with
  | nil => exact h
  | cons c rest ih =>
    exact ih (draw_lines d c.1 c.2.1 c.2.2).1 (classify_inv c.2.2 d h)

/-- C6: starting from a freshly constructed detector, after any sequence of
`draw_lines` calls on arbitrary frame sizes and segment lists, every value in the
left-slope history is below `-0.2` and every value in the right-slope history is
above `0.2`. -/
theorem LaneState_inv_always (calls : List (Int × Int × List Vec4i)) :
    (∀ v ∈ (run_draw_lines LaneDetector.new calls).left_slope,
      Dbl.lt v (Dbl.fin (-(1 / 5))) = true) ∧
    (∀ v ∈ (run_draw_lines LaneDetector.new calls).right_slope,
      Dbl.gt v (Dbl.fin (1 / 5)) = true) := by
  have h0 : LaneState_inv LaneDetector.new := by
    constructor <;> intro v hv <;> simp [LaneDetector.new] at hv
  exact run_draw_lines_inv calls LaneDetector.new h0

/-! Claims on the tail of `draw_lines` and on the session -/

theorem calculate_coord_nan_slope (intercept : Dbl) (rows cols : Int) :
    calculate_coord Dbl.nan intercept rows cols = none := by
  unfold calculate_coord
  cases Dbl.toInt (Dbl.mul (Dbl.ofRat (13 / 20)) (Dbl.ofInt rows)) with
  | none => rfl
  | some y0 =>
    simp only [Option.bind_eq_bind, Option.some_bind, coord_x, div_nan, Dbl.toInt,
      Option.none_bind]

theorem spec_moving_avg_nil : spec_moving_avg [] 30 = Dbl.nan := by
  norm_num [spec_moving_avg, window, mean, Dbl.div, Dbl.ofNat, ofRat_zero]

theorem lane_polygon_left_empty (d : LaneDetector) (rows cols : Int)
    (h : d.left_slope = []) : lane_polygon d rows cols = none := by
  unfold lane_polygon
  simp only [moving_avg_30_eq, h, spec_moving_avg_nil, Option.bind_eq_bind, Option.some_bind,
    calculate_coord_nan_slope, Option.none_bind]

/-- C4: `draw_lines` evaluates the moving average on an empty history.  On a fresh
detector and an empty segment list (a 480 by 640 frame) `moving_avg` divides `0.0` by
the size `0` and returns `NaN`, `calculate_coord` is called with that `NaN` slope and
intercept and its `int(...)` conversion is undefined; the same happens for the left
side when the only segment is a right-lane one. -/
theorem draw_lines_averages_empty_history :
    moving_avg [] 30 = some Dbl.nan ∧
    calculate_coord Dbl.nan Dbl.nan 480 640 = none ∧
    draw_lines LaneDetector.new 480 640 [] = (LaneDetector.new, none) ∧
    (draw_lines LaneDetector.new 480 640 [⟨400, 300, 600, 400⟩]).1.left_slope = [] ∧
    (draw_lines LaneDetector.new 480 640 [⟨400, 300, 600, 400⟩]).2 = none := by
  refine ⟨?_, calculate_coord_nan_slope _ _ _, ?_, ?_, ?_⟩
  · rw [moving_avg_30_eq, spec_moving_avg_nil]
  · simp only [draw_lines, classify, List.foldl_nil]
    rw [lane_polygon_left_empty _ _ _ rfl]
  · norm_num [draw_lines, classify, classify_segment, segment_m, segment_b, wrap32,
      LaneDetector.new, Dbl.ofInt, Dbl.div, Dbl.gt, Dbl.lt, ofRat_ofNat, ofRat_neg_ofNat,
      ofRat_half, ofRat_fifth]
  · simp only [draw_lines]
    apply lane_polygon_left_empty
    norm_num [classify, classify_segment, segment_m, segment_b, wrap32,
      LaneDetector.new, Dbl.ofInt, Dbl.div, Dbl.gt, Dbl.lt, ofRat_ofNat, ofRat_neg_ofNat,
      ofRat_half, ofRat_fifth]

theorem main_session_seen (frames : List Frame) :
    ∀ c ∈ main_session frames, c.seen = LaneDetector.new := by
  unfold main_session
  induction frames with
  | nil => simp [execute]
  | cons f rest ih =>
    intro c hc
    simp only [execute, List.mem_cons] at hc
    rcases hc with hc | hc
    · rw [hc]
      rfl
    · exact ih c hc

/-- C5: in the session run by `main` the histories are reset at every frame.  On a
stream of two 480 by 640 frames, each yielding one right-lane segment (slope 1/2) and
one left-lane segment (slope -1/2), the detector that processed frame 1 ends with
one entry in each history, and the detector that processes frame 2 starts with all
four histories empty: the histories of frame 1 are not an initial part of them. -/
theorem main_session_resets_histories :
    ∃ c1 c2 : FrameCall,
      main_session
        [⟨480, 640, fun _ => [⟨400, 300, 600, 400⟩, ⟨100, 400, 300, 300⟩]⟩,
         ⟨480, 640, fun _ => [⟨400, 300, 600, 400⟩, ⟨100, 400, 300, 300⟩]⟩] = [c1, c2] ∧
      c1.result.right_slope = [Dbl.fin (1 / 2)] ∧
      c1.result.left_slope = [Dbl.fin (-(1 / 2))] ∧
      c2.seen.right_slope = [] ∧ c2.seen.left_slope = [] ∧
      c2.seen.right_intercept = [] ∧ c2.seen.left_intercept = [] ∧
      ¬ (c1.result.right_slope <+: c2.seen.right_slope) ∧
      ¬ (c1.result.left_slope <+: c2.seen.left_slope) := by
  refine ⟨_, _, rfl, ?_, ?_, rfl, rfl, rfl, rfl, ?_, ?_⟩
  · norm_num [main_fcn, LaneDetector.detect, draw_lines, classify, classify_segment,
      segment_m, segment_b, wrap32, LaneDetector.new, Dbl.ofInt, Dbl.div, Dbl.gt, Dbl.lt,
      ofRat_ofNat, ofRat_neg_ofNat, ofRat_half, ofRat_neg_half, ofRat_fifth, Dbl.neg]
  · norm_num [main_fcn, LaneDetector.detect, draw_lines, classify, classify_segment,
      segment_m, segment_b, wrap32, LaneDetector.new, Dbl.ofInt, Dbl.div, Dbl.gt, Dbl.lt,
      ofRat_ofNat, ofRat_neg_ofNat, ofRat_half, ofRat_neg_half, ofRat_fifth, Dbl.neg]
  · norm_num [main_fcn, LaneDetector.detect, draw_lines, classify, classify_segment,
      segment_m, segment_b, wrap32, LaneDetector.new, Dbl.ofInt, Dbl.div, Dbl.gt, Dbl.lt,
      ofRat_ofNat, ofRat_neg_ofNat, ofRat_half, ofRat_neg_half, ofRat_fifth, Dbl.neg]
  · norm_num [main_fcn, LaneDetector.detect, draw_lines, classify, classify_segment,
      segment_m, segment_b, wrap32, LaneDetector.new, Dbl.ofInt, Dbl.div, Dbl.gt, Dbl.lt,
      ofRat_ofNat, ofRat_neg_ofNat, ofRat_half, ofRat_neg_half, ofRat_fifth, Dbl.neg]

/-! Claims on the line transform parameters -/

theorem classify_segment_config (d : LaneDetector) (segment : Vec4i) :
    (classify_segment d segment).rho = d.rho ∧
    (classify_segment d segment).theta = d.theta ∧
    (classify_segment d segment).thr = d.thr := by
  unfold classify_segment
  by_cases hgt : Dbl.gt (segment_m segment) (Dbl.ofRat (1 / 5)) = true
  · rw [if_pos hgt]
    exact ⟨rfl, rfl, rfl⟩
  · by_cases hlt : Dbl.lt (segment_m segment) (Dbl.neg (Dbl.ofRat (1 / 5))) = true
    · rw [if_neg hgt, if_pos hlt]
      exact ⟨rfl, rfl, rfl⟩
    · rw [if_neg hgt, if_neg hlt]
      exact ⟨rfl, rfl, rfl⟩

theorem classify_config (lines : List Vec4i) (d : LaneDetector) :
    (classify d lines).rho = d.rho ∧ (classify d lines).theta = d.theta ∧
    (classify d lines).thr = d.thr := by
  induction lines generalizing d with
  | nil => exact ⟨rfl, rfl, rfl⟩
  | cons segment rest ih =>
    have h1 := classify_segment_config d segment
    have h2 := ih (classify_segment d segment)
    exact ⟨h2.1.trans h1.1, h2.2.1.trans h1.2.1, h2.2.2.trans h1.2.2⟩

theorem run_detect_config (frames : List Frame) (d : LaneDetector) :
    (run_detect d frames).rho = d.rho ∧ (run_detect d frames).theta = d.theta ∧
    (run_detect d frames).thr = d.thr := by
  induction frames generalizing d with
  | nil => exact ⟨rfl, rfl, rfl⟩
  | cons f rest ih =>
    have h1 := classify_config (f.segments d.hough_args) d
    have h2 := ih (d.detect f).1
    exact ⟨h2.1.trans h1.1, h2.2.1.trans h1.2.1, h2.2.2.trans h1.2.2⟩

/-- C9, as stated, fails: the values that `detect` passes in the `minLineLength` and
`maxLineGap` positions of the line transform are not 50 and 100. -/
theorem hough_args_not_50_100 :
    ¬ (LaneDetector.new.hough_args.minLineLength = Dbl.fin 50 ∧
       LaneDetector.new.hough_args.maxLineGap = Dbl.fin 100) := by
  norm_num [LaneDetector.hough_args, HoughLinesP_call, Dbl.ofInt, ofRat_ofNat]

/-- C9, amended: at every frame of a detector's life, `detect` hands the segment
list obtained from the line transform with distance step 2, angle step `CV_PI/180`,
minimum-votes threshold 100, minimum segment length 100 and maximum gap 50 to
`draw_lines`. -/
theorem detect_hough_args (frames : List Frame) (frame : Frame) :
    (run_detect LaneDetector.new frames).detect frame =
      draw_lines (run_detect LaneDetector.new frames) frame.rows frame.cols
        (frame.segments
          { rho := Dbl.fin 2
            theta := Dbl.div CV_PI (Dbl.ofInt 180)
            threshold := 100
            minLineLength := Dbl.fin 100
            maxLineGap := Dbl.fin 50 }) := by
  obtain ⟨h1, h2, h3⟩ := run_detect_config frames LaneDetector.new
  have hargs : (run_detect LaneDetector.new frames).hough_args =
      { rho := Dbl.fin 2
        theta := Dbl.div CV_PI (Dbl.ofInt 180)
        threshold := 100
        minLineLength := Dbl.fin 100
        maxLineGap := Dbl.fin 50 } := by
    simp only [LaneDetector.hough_args, HoughLinesP_call, h1, h2, h3]
    norm_num [LaneDetector.new, Dbl.ofInt, ofRat_ofNat]
  unfold LaneDetector.detect
  rw [hargs]

/-! The classifier loop on segments without `int` overflow -/

theorem wrap32_of_range (i : Int) (h : Dbl.INT_MIN ≤ i ∧ i ≤ Dbl.INT_MAX) : wrap32 i = i := by
  unfold Dbl.INT_MIN Dbl.INT_MAX at h
  unfold wrap32
  omega

theorem ofInt_of_range (i : Int) (h : Dbl.INT_MIN ≤ i ∧ i ≤ Dbl.INT_MAX) :
    Dbl.ofInt i = Dbl.fin (i : ℚ) := by
  unfold Dbl.INT_MIN Dbl.INT_MAX at h
  unfold Dbl.ofInt
  apply ofRat_intCast
  rw [abs_lt]
  constructor <;> omega

theorem segment_m_eq (x0 y0 x1 y1 : Int) (h : x0 ≠ x1)
    (hdy : Dbl.INT_MIN ≤ y0 - y1 ∧ y0 - y1 ≤ Dbl.INT_MAX)
    (hdx : Dbl.INT_MIN ≤ x0 - x1 ∧ x0 - x1 ≤ Dbl.INT_MAX) :
    segment_m ⟨x0, y0, x1, y1⟩ = Dbl.ofRat (((y1 : ℚ) - y0) / ((x1 : ℚ) - x0)) := by
  have hne : ((x0 : ℚ) - x1) ≠ 0 := by
    intro h0
    apply h
    have : (x0 : ℚ) = x1 := by linarith
    exact_mod_cast this
  have hq : ((y0 : ℚ) - y1) / ((x0 : ℚ) - x1) = ((y1 : ℚ) - y0) / ((x1 : ℚ) - x0) := by
    rw [← neg_sub (y1 : ℚ) y0, ← neg_sub (x1 : ℚ) x0, neg_div_neg_eq]
  simp only [segment_m, wrap32_of_range _ hdy, wrap32_of_range _ hdx, ofInt_of_range _ hdy,
    ofInt_of_range _ hdx, Dbl.div, Int.cast_sub, hne, if_false, hq]

theorem segment_b_eq (x0 y0 x1 y1 : Int) (hy1 : Dbl.INT_MIN ≤ y1 ∧ y1 ≤ Dbl.INT_MAX) :
    segment_b ⟨x0, y0, x1, y1⟩ =
      Dbl.sub (Dbl.ofInt y1) (Dbl.mul (segment_m ⟨x0, y0, x1, y1⟩) (Dbl.ofInt x1)) := by
  have h1 : Dbl.mul (Dbl.fin 1) (Dbl.ofInt y1) = Dbl.ofInt y1 := by
    rw [ofInt_of_range _ hy1]
    simp only [Dbl.mul, one_mul]
    exact (ofInt_of_range _ hy1)
  simp only [segment_b, h1]

/-- A quotient of two integers with a divisor of at most 31 bits that exceeds `1/5`
exceeds it by at least `1/(5 * 2^31)`. -/
theorem fifth_gap (a c : Int) (hc : c ≠ 0) (hcl : -2147483648 ≤ c) (hcu : c ≤ 2147483648)
    (h : (1 / 5 : ℚ) < (a : ℚ) / (c : ℚ)) :
    (1 / 5 : ℚ) + 1 / 10737418240 ≤ (a : ℚ) / (c : ℚ) := by
  rcases lt_or_gt_of_ne hc with hneg | hpos
  · have hc' : (0 : ℚ) < -(c : ℚ) := by
      have : (c : ℚ) < 0 := by exact_mod_cast hneg
      linarith
    have e : (a : ℚ) / (c : ℚ) = (-(a : ℚ)) / (-(c : ℚ)) := by rw [neg_div_neg_eq]
    rw [e] at h ⊢
    have h1 : (1 / 5 : ℚ) * (-(c : ℚ)) < -(a : ℚ) := (lt_div_iff₀ hc').mp h
    have h2 : -c < 5 * (-a) := by
      have : (((-c : Int)) : ℚ) < ((5 * (-a) : Int) : ℚ) := by
        push_cast
        linarith
      exact_mod_cast this
    have h3 : ((-c : Int) : ℚ) + 1 ≤ ((5 * (-a) : Int) : ℚ) := by
      have : -c + 1 ≤ 5 * (-a) := by omega
      exact_mod_cast this
    have h4 : -(c : ℚ) ≤ 2147483648 := by
      have : ((-c : Int) : ℚ) ≤ ((2147483648 : Int) : ℚ) := by
        have : -c ≤ 2147483648 := by omega
        exact_mod_cast this
      push_cast at this
      exact this
    push_cast at h3
    rw [le_div_iff₀ hc']
    linarith
  · have hc' : (0 : ℚ) < (c : ℚ) := by exact_mod_cast hpos
    have h1 : (1 / 5 : ℚ) * (c : ℚ) < (a : ℚ) := (lt_div_iff₀ hc').mp h
    have h2 : c < 5 * a := by
      have : ((c : Int) : ℚ) < ((5 * a : Int) : ℚ) := by
        push_cast
        linarith
      exact_mod_cast this
    have h3 : ((c : Int) : ℚ) + 1 ≤ ((5 * a : Int) : ℚ) := by
      have : c + 1 ≤ 5 * a := by omega
      exact_mod_cast this
    have h4 : (c : ℚ) ≤ 2147483648 := by
      have : ((c : Int) : ℚ) ≤ ((2147483648 : Int) : ℚ) := by exact_mod_cast hcu
      push_cast at this
      exact this
    push_cast at h3
    rw [le_div_iff₀ hc']
    linarith

theorem two_pow_neg_le (e : Int) (h : e ≤ -60) : (2 : ℚ) ^ e ≤ 1 / 1152921504606846976 := by
  have h1 : (2 : ℚ) ^ e ≤ (2 : ℚ) ^ (-60 : Int) := zpow_le_zpow_right₀ (by norm_num) h
  have h2 : (2 : ℚ) ^ (-60 : Int) = 1 / 1152921504606846976 := by norm_num
  rw [← h2]
  exact h1

/-- A value at least `1/5 + 1/(5 * 2^31)` rounds to a `double` above the literal `0.2`. -/
theorem gt_lit_of_gap (q : ℚ) (hq : (1 / 5 : ℚ) + 1 / 10737418240 ≤ q) :
    Dbl.gt (Dbl.ofRat q) (Dbl.ofRat (1 / 5)) = true := by
  rw [ofRat_fifth]
  have hq0 : (0 : ℚ) ≤ q := by linarith
  rcases ofRat_cases q with h | h | h | h
  · rw [h.2.2]
    rfl
  · linarith [h.2.1]
  · rw [h.2.2, abs_of_nonneg hq0]
    have hn : (2 : ℚ) ^ (-1022 : Int) ≤ q :=
      le_trans (two_pow_neg_le (-1022) (by norm_num)) (by linarith)
    have he := abs_le.mp (roundMag_err_normal q hn)
    have e53 : (2 : ℚ) ^ (-53 : Int) = 1 / 9007199254740992 := by norm_num
    rw [e53] at he
    simp only [Dbl.gt, Dbl.lt, decide_eq_true_eq]
    linarith [he.1]
  · linarith [h.2.1]

/-- A value of at most `1/5` does not round to a `double` above the literal `0.2`. -/
theorem not_gt_lit_of_le (q : ℚ) (hq : q ≤ 1 / 5) :
    Dbl.gt (Dbl.ofRat q) (Dbl.ofRat (1 / 5)) = false := by
  rw [ofRat_fifth]
  have hsmall : ∀ a : ℚ, 0 ≤ a → a ≤ 1 / 5 →
      Dbl.roundMag a ≤ 3602879701896397 / 18014398509481984 := by
    intro a ha0 ha
    by_cases h8 : a < 1 / 8
    · have he := abs_le.mp (roundMag_err a ha0)
      have e53 : (2 : ℚ) ^ (-53 : Int) = 1 / 9007199254740992 := by norm_num
      have e1075 := two_pow_neg_le (-1075) (by norm_num)
      rw [e53] at he
      generalize (2 : ℚ) ^ (-1075 : Int) = t at he e1075
      linarith [he.2]
    · have h1 : (2 : ℚ) ^ (-3 : Int) ≤ a := by
        have : (2 : ℚ) ^ (-3 : Int) = 1 / 8 := by norm_num
        rw [this]
        exact not_lt.mp h8
      have h2 : a < (2 : ℚ) ^ ((-3 : Int) + 1) := by
        have : (2 : ℚ) ^ ((-3 : Int) + 1) = 1 / 4 := by norm_num
        rw [this]
        linarith
      have hu : Dbl.ulp a = 1 / 36028797018963968 := by
        rw [ulp_eq_of_bounds a (-3) h1 h2]
        norm_num
      have hg := roundMag_le_of_grid a 7205759403792794 (by rw [hu]; norm_num; linarith)
      rw [hu] at hg
      norm_num at hg ⊢
      exact hg
  rcases ofRat_cases q with h | h | h | h
  · have hb := hsmall |q| (abs_nonneg q) (by rw [abs_of_nonneg h.2.1]; exact hq)
    have : (3602879701896397 / 18014398509481984 : ℚ) < (2 : ℚ) ^ (1024 : Nat) :=
      lt_overflow_of_lt _ (by norm_num)
    linarith [h.1]
  · rw [h.2.2]
    rfl
  · rw [h.2.2]
    have hb := hsmall |q| (abs_nonneg q) (by rw [abs_of_nonneg h.2.1]; exact hq)
    simp only [Dbl.gt, Dbl.lt, decide_eq_false_iff_not, not_lt]
    exact hb
  · rw [h.2.2]
    have hb := roundMag_nonneg |q| (abs_nonneg q)
    simp only [Dbl.gt, Dbl.lt, decide_eq_false_iff_not, not_lt]
    linarith

theorem lt_neg_eq_gt_neg (x y : Dbl) : Dbl.lt x (Dbl.neg y) = Dbl.gt (Dbl.neg x) y := by
  cases x <;> cases y <;> simp only [Dbl.lt, Dbl.gt, Dbl.neg]
  apply decide_eq_decide.mpr
  constructor <;> intro h <;> linarith

theorem lt_neg_lit_eq (q : ℚ) :
    Dbl.lt (Dbl.ofRat q) (Dbl.neg (Dbl.ofRat (1 / 5))) =
      Dbl.gt (Dbl.ofRat (-q)) (Dbl.ofRat (1 / 5)) := by
  rw [lt_neg_eq_gt_neg, ofRat_neg]

/-! Claims on the classifier loop -/

theorem ofRat_third :
    Dbl.ofRat (1 / 3) = Dbl.fin (6004799503160661 / 18014398509481984) := by
  have h := ofRat_eval_pos (1 / 3) (1 / 18014398509481984) (-2) 6004799503160661
    (by norm_num) (by norm_num) (by norm_num) (by norm_num [Dbl.rne])
    (lt_overflow_of_lt _ (by norm_num))
  norm_num at h ⊢
  exact h

theorem ofRat_third_times_three :
    Dbl.ofRat (18014398509481983 / 18014398509481984) = Dbl.fin 1 := by
  have h := ofRat_eval_pos (18014398509481983 / 18014398509481984) (1 / 9007199254740992) (-1)
    9007199254740992 (by norm_num) (by norm_num) (by norm_num) (by norm_num [Dbl.rne])
    (lt_overflow_of_lt _ (by norm_num))
  norm_num at h ⊢
  exact h

theorem ofInt_neg_two_pow_31 : Dbl.ofInt (-2147483648) = Dbl.fin (-2147483648) := by
  simp only [Dbl.ofInt, Int.cast_neg, Int.cast_ofNat]
  rw [ofRat_neg_ofNat 2147483648 (by norm_num)]

theorem ofInt_neg_one : Dbl.ofInt (-1) = Dbl.fin (-1) := by
  simp only [Dbl.ofInt, Int.cast_neg, Int.cast_one]
  exact ofRat_neg_one

theorem ofInt_one : Dbl.ofInt 1 = Dbl.fin 1 := by
  simp only [Dbl.ofInt, Int.cast_one]
  exact ofRat_one

theorem ofInt_three : Dbl.ofInt 3 = Dbl.fin 3 := by
  simp only [Dbl.ofInt, Int.cast_ofNat]
  exact ofRat_ofNat 3 (by norm_num)

theorem ofInt_neg_three : Dbl.ofInt (-3) = Dbl.fin (-3) := by
  simp only [Dbl.ofInt, Int.cast_neg, Int.cast_ofNat]
  exact ofRat_neg_ofNat 3 (by norm_num)

/-- C2, as stated, fails.  On `(0, 2147483647, 1, -1)` the exact slope is
`-2147483648`, below `-0.2`, but the `int` subtraction `2147483647 - (-1)` wraps to
`-2147483648`, the loop computes the slope `+2147483648` and appends to the right
histories.  On `(0, 0, 3, 1)` the exact slope is `1/3`, and the value appended is the
`double` nearest to it, `6004799503160661 / 2^54`, with the intercept `0`. -/
theorem classify_segment_overflow_and_rounding :
    (((-1 : ℚ) - 2147483647) / (1 - 0) < -(1 / 5) ∧
      classify_segment LaneDetector.new ⟨0, 2147483647, 1, -1⟩ =
        { LaneDetector.new with
          right_slope := [Dbl.fin 2147483648]
          right_intercept := [Dbl.fin (-2147483649)] }) ∧
    (classify_segment LaneDetector.new ⟨0, 0, 3, 1⟩ =
        { LaneDetector.new with
          right_slope := [Dbl.fin (6004799503160661 / 18014398509481984)]
          right_intercept := [Dbl.fin 0] } ∧
      (6004799503160661 / 18014398509481984 : ℚ) ≠ ((1 : ℚ) - 0) / (3 - 0)) := by
  refine ⟨⟨by norm_num, ?_⟩, ?_, by norm_num⟩
  · have e1 : wrap32 (2147483647 - (-1)) = -2147483648 := by norm_num [wrap32]
    have e2 : wrap32 (0 - 1) = -1 := by norm_num [wrap32]
    have hm : segment_m ⟨0, 2147483647, 1, -1⟩ = Dbl.fin 2147483648 := by
      simp only [segment_m, e1, e2, ofInt_neg_two_pow_31, ofInt_neg_one]
      norm_num [Dbl.div, ofRat_ofNat]
    have hb : segment_b ⟨0, 2147483647, 1, -1⟩ = Dbl.fin (-2147483649) := by
      have hb1 : segment_b ⟨0, 2147483647, 1, -1⟩ =
          Dbl.sub (Dbl.mul (Dbl.fin 1) (Dbl.ofInt (-1)))
            (Dbl.mul (segment_m ⟨0, 2147483647, 1, -1⟩) (Dbl.ofInt 1)) := rfl
      rw [hb1, hm, ofInt_neg_one, ofInt_one]
      norm_num [Dbl.mul, ofRat_neg_one, ofRat_ofNat]
      norm_num [Dbl.sub, Dbl.neg, Dbl.add, ofRat_neg_ofNat]
    simp only [classify_segment, hm, hb, ofRat_fifth]
    norm_num [Dbl.gt, Dbl.lt, LaneDetector.new]
  · have e1 : wrap32 (0 - 1) = -1 := by norm_num [wrap32]
    have e2 : wrap32 (0 - 3) = -3 := by norm_num [wrap32]
    have hm : segment_m ⟨0, 0, 3, 1⟩ = Dbl.fin (6004799503160661 / 18014398509481984) := by
      simp only [segment_m, e1, e2, ofInt_neg_one, ofInt_neg_three]
      norm_num [Dbl.div, ofRat_third]
    have hb : segment_b ⟨0, 0, 3, 1⟩ = Dbl.fin 0 := by
      have hb1 : segment_b ⟨0, 0, 3, 1⟩ =
          Dbl.sub (Dbl.mul (Dbl.fin 1) (Dbl.ofInt 1))
            (Dbl.mul (segment_m ⟨0, 0, 3, 1⟩) (Dbl.ofInt 3)) := rfl
      rw [hb1, hm, ofInt_one, ofInt_three]
      norm_num [Dbl.mul, ofRat_one, ofRat_third_times_three]
      norm_num [Dbl.sub, Dbl.neg, Dbl.add, ofRat_zero]
    simp only [classify_segment, hm, hb, ofRat_fifth]
    norm_num [Dbl.gt, Dbl.lt, LaneDetector.new]

/-- C2, amended: for a segment `(x0, y0, x1, y1)` with `x0 ≠ x1` whose `int`
differences `y0 - y1` and `x0 - x1` do not overflow, the loop computes `m` as the
`double` nearest to `(y1-y0)/(x1-x0)` and `b` as `y1 - m*x1` in `double` arithmetic.
If the exact slope is above `0.2`, `m` and `b` are appended to the right histories and
nothing else changes; if it is below `-0.2`, they are appended to the left histories
and nothing else changes; otherwise (both bounds included) the detector is
unchanged. -/
theorem classify_segment_routes (d : LaneDetector) (x0 y0 x1 y1 : Int) (h : x0 ≠ x1)
    (hy1 : Dbl.INT_MIN ≤ y1 ∧ y1 ≤ Dbl.INT_MAX)
    (hdy : Dbl.INT_MIN ≤ y0 - y1 ∧ y0 - y1 ≤ Dbl.INT_MAX)
    (hdx : Dbl.INT_MIN ≤ x0 - x1 ∧ x0 - x1 ≤ Dbl.INT_MAX) :
    segment_m ⟨x0, y0, x1, y1⟩ = Dbl.ofRat (((y1 : ℚ) - y0) / ((x1 : ℚ) - x0)) ∧
    segment_b ⟨x0, y0, x1, y1⟩ =
      Dbl.sub (Dbl.ofInt y1)
        (Dbl.mul (Dbl.ofRat (((y1 : ℚ) - y0) / ((x1 : ℚ) - x0))) (Dbl.ofInt x1)) ∧
    (1 / 5 < ((y1 : ℚ) - y0) / ((x1 : ℚ) - x0) →
      classify_segment d ⟨x0, y0, x1, y1⟩ =
        { d with
          right_slope := d.right_slope ++ [segment_m ⟨x0, y0, x1, y1⟩]
          right_intercept := d.right_intercept ++ [segment_b ⟨x0, y0, x1, y1⟩] }) ∧
    (((y1 : ℚ) - y0) / ((x1 : ℚ) - x0) < -(1 / 5) →
      classify_segment d ⟨x0, y0, x1, y1⟩ =
        { d with
          left_slope := d.left_slope ++ [segment_m ⟨x0, y0, x1, y1⟩]
          left_intercept := d.left_intercept ++ [segment_b ⟨x0, y0, x1, y1⟩] }) ∧
    (-(1 / 5) ≤ ((y1 : ℚ) - y0) / ((x1 : ℚ) - x0) →
      ((y1 : ℚ) - y0) / ((x1 : ℚ) - x0) ≤ 1 / 5 →
      classify_segment d ⟨x0, y0, x1, y1⟩ = d) := by
  have hm := segment_m_eq x0 y0 x1 y1 h hdy hdx
  have hb := segment_b_eq x0 y0 x1 y1 hy1
  have hc : x1 - x0 ≠ 0 := by omega
  have hcl : -2147483648 ≤ x1 - x0 := by
    have := hdx.2
    unfold Dbl.INT_MAX at this
    omega
  have hcu : x1 - x0 ≤ 2147483648 := by
    have := hdx.1
    unfold Dbl.INT_MIN at this
    omega
  have eq1 : ((y1 : ℚ) - y0) / ((x1 : ℚ) - x0) = ((y1 - y0 : Int) : ℚ) / ((x1 - x0 : Int) : ℚ) := by
    push_cast
    rfl
  have eq2 : -(((y1 : ℚ) - y0) / ((x1 : ℚ) - x0)) =
      ((-(y1 - y0) : Int) : ℚ) / ((x1 - x0 : Int) : ℚ) := by
    push_cast
    ring
  refine ⟨hm, ?_, ?_, ?_, ?_⟩
  · rw [hb, hm]
  · intro hgt
    have hgap : (1 / 5 : ℚ) + 1 / 10737418240 ≤ ((y1 : ℚ) - y0) / ((x1 : ℚ) - x0) := by
      rw [eq1] at hgt ⊢
      exact fifth_gap _ _ hc hcl hcu hgt
    have hcond : Dbl.gt (segment_m ⟨x0, y0, x1, y1⟩) (Dbl.ofRat (1 / 5)) = true := by
      rw [hm]
      exact gt_lit_of_gap _ hgap
    unfold classify_segment
    simp only [hcond, if_true]
  · intro hlt
    have hgap : (1 / 5 : ℚ) + 1 / 10737418240 ≤ -(((y1 : ℚ) - y0) / ((x1 : ℚ) - x0)) := by
      have hlt' : (1 / 5 : ℚ) < -(((y1 : ℚ) - y0) / ((x1 : ℚ) - x0)) := by linarith
      rw [eq2] at hlt' ⊢
      exact fifth_gap _ _ hc hcl hcu hlt'
    have hc1 : Dbl.gt (segment_m ⟨x0, y0, x1, y1⟩) (Dbl.ofRat (1 / 5)) = false := by
      rw [hm]
      exact not_gt_lit_of_le _ (by linarith)
    have hc2 : Dbl.lt (segment_m ⟨x0, y0, x1, y1⟩) (Dbl.neg (Dbl.ofRat (1 / 5))) = true := by
      rw [hm, lt_neg_lit_eq]
      exact gt_lit_of_gap _ hgap
    unfold classify_segment
    simp only [hc1, hc2, if_true, Bool.false_eq_true, if_false]
  · intro hlo hhi
    have hc1 : Dbl.gt (segment_m ⟨x0, y0, x1, y1⟩) (Dbl.ofRat (1 / 5)) = false := by
      rw [hm]
      exact not_gt_lit_of_le _ hhi
    have hc2 : Dbl.lt (segment_m ⟨x0, y0, x1, y1⟩) (Dbl.neg (Dbl.ofRat (1 / 5))) = false := by
      rw [hm, lt_neg_lit_eq]
      exact not_gt_lit_of_le _ (by linarith)
    unfold classify_segment
    simp only [hc1, hc2, Bool.false_eq_true, if_false]

/-- C2, at the segments `(0,0,10,5)` (slope 1/2, right), `(0,5,10,0)` (slope -1/2,
left) and `(0,0,5,1)` (slope exactly 1/5, discarded). -/
theorem classify_segment_routes_witness :
    classify_segment LaneDetector.new ⟨0, 0, 10, 5⟩ =
      { LaneDetector.new with right_slope := [Dbl.fin (1 / 2)], right_intercept := [Dbl.fin 0] } ∧
    classify_segment LaneDetector.new ⟨0, 5, 10, 0⟩ =
      { LaneDetector.new with left_slope := [Dbl.fin (-(1 / 2))], left_intercept := [Dbl.fin 5] } ∧
    classify_segment LaneDetector.new ⟨0, 0, 5, 1⟩ = LaneDetector.new := by
  have h1 := classify_segment_routes LaneDetector.new 0 0 10 5 (by decide)
    (by decide) (by decide) (by decide)
  have h2 := classify_segment_routes LaneDetector.new 0 5 10 0 (by decide)
    (by decide) (by decide) (by decide)
  have h3 := classify_segment_routes LaneDetector.new 0 0 5 1 (by decide)
    (by decide) (by decide) (by decide)
  refine ⟨?_, ?_, ?_⟩
  · rw [h1.2.2.1 (by norm_num), h1.2.1, h1.1]
    norm_num [LaneDetector.new, Dbl.ofInt, Dbl.mul, Dbl.sub, Dbl.neg, Dbl.add, ofRat_zero,
      ofRat_ofNat, ofRat_half]
  · rw [h2.2.2.2.1 (by norm_num), h2.2.1, h2.1]
    norm_num [LaneDetector.new, Dbl.ofInt, Dbl.mul, Dbl.sub, Dbl.neg, Dbl.add, ofRat_zero,
      ofRat_ofNat, ofRat_neg_ofNat, ofRat_neg_half]
  · exact h3.2.2.2.2 (by norm_num) (by norm_num)

/-! Claims on the moving average as the pipeline uses it -/

theorem lane_polygon_eq_spec (d : LaneDetector) (rows cols : Int) :
    lane_polygon d rows cols = spec_lane_polygon d rows cols := by
  unfold lane_polygon spec_lane_polygon
  simp only [moving_avg_30_eq, Option.bind_eq_bind, Option.some_bind]

/-- A left-to-right sum whose partial sums are all doubles is computed without
rounding. -/
theorem foldl_add_exact (qs : List ℚ) (acc : ℚ)
    (h : ∀ k, k ≤ qs.length →
      Dbl.ofRat (acc + (qs.take k).sum) = Dbl.fin (acc + (qs.take k).sum)) :
    (qs.map Dbl.fin).foldl Dbl.add (Dbl.fin acc) = Dbl.fin (acc + qs.sum) := by
  induction qs generalizing acc with
  | nil => simp
  | cons q rest ih =>
    have h1 := h 1 (by simp)
    simp only [List.take_succ_cons, List.take_zero, List.sum_cons, List.sum_nil, add_zero] at h1
    simp only [List.map_cons, List.foldl_cons, Dbl.add, h1, List.sum_cons]
    rw [ih (acc + q), add_assoc]
    intro k hk
    have h2 := h (k + 1) (by simpa using hk)
    simp only [List.take_succ_cons, List.sum_cons] at h2
    rw [add_assoc]
    exact h2

theorem ofRat_1e16 : Dbl.ofRat 10000000000000000 = Dbl.fin 10000000000000000 := by
  have h := ofRat_rep 152587890625 16 (by norm_num) (by norm_num) (by norm_num)
  norm_num at h
  exact h

theorem ofRat_1e16_add_one : Dbl.ofRat 10000000000000001 = Dbl.fin 10000000000000000 := by
  have h := ofRat_eval_pos 10000000000000001 2 53 5000000000000000 (by norm_num) (by norm_num)
    (by norm_num) (by norm_num [Dbl.rne]) (lt_overflow_of_lt _ (by norm_num))
  norm_num at h
  exact h

theorem moving_avg_three (a b c : Dbl) :
    moving_avg [a, b, c] 30 =
      some (Dbl.div (Dbl.add (Dbl.add (Dbl.add (Dbl.fin 0) a) b) c) (Dbl.ofNat 3)) := by
  simp [moving_avg, size_t_of_int, accumulate]

/-- C10, as stated, fails: on the history `1e16, 1, -1e16` the sum `1e16 + 1` rounds
back to `1e16`, so `moving_avg(values, 30)` returns `0`, while the exact arithmetic
mean of the three entries is `1/3`. -/
theorem moving_avg_30_rounds :
    moving_avg [Dbl.fin 10000000000000000, Dbl.fin 1, Dbl.fin (-10000000000000000)] 30 =
      some (Dbl.fin 0) ∧
    ((10000000000000000 : ℚ) + 1 + -10000000000000000) / 3 = 1 / 3 := by
  refine ⟨?_, by norm_num⟩
  have q1 : Dbl.add (Dbl.fin 0) (Dbl.fin 10000000000000000) = Dbl.fin 10000000000000000 := by
    norm_num [Dbl.add, ofRat_1e16]
  have q2 : Dbl.add (Dbl.fin 10000000000000000) (Dbl.fin 1) = Dbl.fin 10000000000000000 := by
    norm_num [Dbl.add, ofRat_1e16_add_one]
  have q3 : Dbl.add (Dbl.fin 10000000000000000) (Dbl.fin (-10000000000000000)) =
      Dbl.fin 0 := by
    norm_num [Dbl.add, ofRat_zero]
  have q4 : Dbl.div (Dbl.fin 0) (Dbl.ofNat 3) = Dbl.fin 0 := by
    norm_num [Dbl.div, Dbl.ofNat, ofRat_ofNat, ofRat_zero]
  rw [moving_avg_three, q1, q2, q3, q4]

/-- C10, amended: with the window 30 that `draw_lines` always passes, the hard-coded
30 of `moving_avg` is unobservable.  On a non-empty history `moving_avg(values, 30)`
reads only inside the history and returns the mean of the last `min 30 L` entries
evaluated in `double` arithmetic (the entries summed from left to right starting from
`0.0`, the sum divided by their count); `draw_lines` computes the polygon it draws
from these means; and when every partial sum of those entries is a `double`, the
result is the exact arithmetic mean rounded once to the nearest `double`. -/
theorem moving_avg_30_is_mean (values : List Dbl) (h : values ≠ []) :
    moving_avg values 30 = some (spec_moving_avg values 30) ∧
    (∀ (d : LaneDetector) (rows cols : Int) (lines : List Vec4i),
      draw_lines d rows cols lines =
        (classify d lines, spec_lane_polygon (classify d lines) rows cols)) ∧
    (∀ qs : List ℚ, values = qs.map Dbl.fin →
      (∀ k, k ≤ min 30 qs.length →
        Dbl.ofRat (((qs.drop (qs.length - min 30 qs.length)).take k).sum) =
          Dbl.fin (((qs.drop (qs.length - min 30 qs.length)).take k).sum)) →
      spec_moving_avg values 30 =
        Dbl.ofRat ((qs.drop (qs.length - min 30 qs.length)).sum /
          ((min 30 qs.length : Nat) : ℚ))) := by
  refine ⟨moving_avg_30_eq values, ?_, ?_⟩
  · intro d rows cols lines
    simp only [draw_lines, lane_polygon_eq_spec]
  · intro qs hqs hex
    subst hqs
    have hne : qs ≠ [] := by
      intro h0
      apply h
      simp [h0]
    have hpos : 0 < qs.length := List.length_pos.mpr hne
    have hlen : (qs.drop (qs.length - min 30 qs.length)).length = min 30 qs.length := by
      rw [List.length_drop]
      omega
    have hw : window (qs.map Dbl.fin) 30 =
        (qs.drop (qs.length - min 30 qs.length)).map Dbl.fin := by
      simp [window, List.map_drop]
    have hsum := foldl_add_exact (qs.drop (qs.length - min 30 qs.length)) 0 (by
      intro k hk
      rw [hlen] at hk
      simpa using hex k hk)
    have hcount : Dbl.ofNat (min 30 qs.length) = Dbl.fin ((min 30 qs.length : Nat) : ℚ) :=
      ofRat_natCast _ (by
        have : min 30 qs.length ≤ 30 := min_le_left _ _
        omega)
    have hne0 : ((min 30 qs.length : Nat) : ℚ) ≠ 0 := by
      have : min 30 qs.length ≠ 0 := by omega
      exact_mod_cast this
    unfold spec_moving_avg mean
    rw [hw, hsum, List.length_map, hlen, hcount]
    simp only [Dbl.div, hne0, if_false, zero_add]

/-- C10, at a history of 31 entries, `100` followed by thirty times `2`: the branch
with the hard-coded 30 is taken and the result is the mean `2` of the last thirty
entries. -/
theorem moving_avg_30_is_mean_witness :
    moving_avg (Dbl.fin 100 :: List.replicate 30 (Dbl.fin 2)) 30 = some (Dbl.fin 2) := by
  rw [(moving_avg_30_is_mean (Dbl.fin 100 :: List.replicate 30 (Dbl.fin 2)) (by simp)).1]
  simp [spec_moving_avg, window, mean, List.replicate]
  norm_num [Dbl.add, ofRat_zero, ofRat_ofNat]
  norm_num [Dbl.div, Dbl.ofNat, ofRat_ofNat]

/-! Claims on `calculate_coord` -/

theorem trunc_abs_sub_lt_one (q : ℚ) : |((Dbl.trunc q : Int) : ℚ) - q| < 1 := by
  unfold Dbl.trunc
  by_cases h : 0 ≤ q
  · rw [if_pos h, abs_lt]
    have h1 := Int.floor_le q
    have h2 := Int.lt_floor_add_one q
    constructor <;> linarith
  · rw [if_neg h, abs_lt]
    have h1 := Int.le_ceil q
    have h2 := Int.ceil_lt_add_one q
    constructor <;> linarith

theorem trunc_in_int_range (q : ℚ) (hlo : ((Dbl.INT_MIN : Int) : ℚ) - 1 < q)
    (hhi : q < ((Dbl.INT_MAX : Int) : ℚ) + 1) :
    Dbl.INT_MIN ≤ Dbl.trunc q ∧ Dbl.trunc q ≤ Dbl.INT_MAX := by
  have habs := abs_lt.mp (trunc_abs_sub_lt_one q)
  have hsign : (0 ≤ q → 0 ≤ Dbl.trunc q) ∧ (q < 0 → Dbl.trunc q ≤ 0) := by
    unfold Dbl.trunc
    constructor
    · intro h
      rw [if_pos h]
      exact Int.floor_nonneg.mpr h
    · intro h
      rw [if_neg (not_le.mpr h)]
      exact Int.ceil_le.mpr (by simpa using le_of_lt h)
  unfold Dbl.INT_MIN Dbl.INT_MAX at *
  by_cases h : 0 ≤ q
  · have h0 := hsign.1 h
    refine ⟨by omega, ?_⟩
    have h1 : ((Dbl.trunc q : Int) : ℚ) ≤ q := by
      unfold Dbl.trunc
      rw [if_pos h]
      exact Int.floor_le q
    have h2 : ((Dbl.trunc q : Int) : ℚ) < ((2147483647 : Int) : ℚ) + 1 := lt_of_le_of_lt h1 hhi
    have h3 : ((Dbl.trunc q : Int) : ℚ) < ((2147483648 : Int) : ℚ) := by
      push_cast at h2 ⊢
      linarith
    have h4 : Dbl.trunc q < 2147483648 := by exact_mod_cast h3
    omega
  · have h0 := hsign.2 (not_le.mp h)
    refine ⟨?_, by omega⟩
    have h1 : q ≤ ((Dbl.trunc q : Int) : ℚ) := by
      unfold Dbl.trunc
      rw [if_neg h]
      exact Int.le_ceil q
    have h2 : ((-2147483648 : Int) : ℚ) - 1 < ((Dbl.trunc q : Int) : ℚ) := lt_of_lt_of_le hlo h1
    have h3 : ((-2147483649 : Int) : ℚ) < ((Dbl.trunc q : Int) : ℚ) := by
      push_cast at h2 ⊢
      linarith
    have h4 : -2147483649 < Dbl.trunc q := by exact_mod_cast h3
    omega

theorem toInt_fin_of_range (q : ℚ) (hlo : ((Dbl.INT_MIN : Int) : ℚ) - 1 < q)
    (hhi : q < ((Dbl.INT_MAX : Int) : ℚ) + 1) :
    Dbl.toInt (Dbl.fin q) = some (Dbl.trunc q) := by
  show (if Dbl.INT_MIN ≤ Dbl.trunc q ∧ Dbl.trunc q ≤ Dbl.INT_MAX then some (Dbl.trunc q)
    else none) = some (Dbl.trunc q)
  rw [if_pos (trunc_in_int_range q hlo hhi)]

theorem ofRat_065 :
    Dbl.ofRat (13 / 20) = Dbl.fin (5854679515581645 / 9007199254740992) := by
  have h := ofRat_eval_pos (13 / 20) (1 / 9007199254740992) (-1) 5854679515581645
    (by norm_num) (by norm_num) (by norm_num) (by norm_num [Dbl.rne])
    (lt_overflow_of_lt _ (by norm_num))
  norm_num at h ⊢
  exact h

/-- Integers below a value of less than 53 bits stay below its rounding. -/
theorem int_le_roundMag (a : ℚ) (k : Int) (hk : (k : ℚ) ≤ a) (ha : 0 < a)
    (hlt : a < (2 : ℚ) ^ (53 : Int)) : (k : ℚ) ≤ Dbl.roundMag a := by
  have hL : Int.log 2 a < 53 :=
    (Int.lt_zpow_iff_log_lt (b := 2) (by norm_num) (x := 53) ha).mp (by exact_mod_cast hlt)
  have hexp : Dbl.ulpExp a ≤ 0 := by
    unfold Dbl.ulpExp
    have : max (Int.log 2 a) (-1022) ≤ 52 := max_le (by omega) (by norm_num)
    omega
  have hgrid : ((k * 2 ^ (-Dbl.ulpExp a).toNat : Int) : ℚ) * Dbl.ulp a = (k : ℚ) := by
    unfold Dbl.ulp
    generalize Dbl.ulpExp a = x at hexp ⊢
    have hd : (((-x).toNat : Nat) : Int) = -x := Int.toNat_of_nonneg (by omega)
    push_cast
    rw [mul_assoc, ← zpow_natCast, hd, ← zpow_add₀ (by norm_num : (2 : ℚ) ≠ 0)]
    simp
  have h := le_roundMag_of_grid a (k * 2 ^ (-Dbl.ulpExp a).toNat) (by rw [hgrid]; exact hk)
  rw [hgrid] at h
  exact h

/-- The first conversion of `calculate_coord`: for every positive `int` number of
rows, `int(0.65*rows)` is defined and equals the truncation of the exact `13/20 * rows`,
although `0.65` and the product are rounded. -/
theorem y0_eq (rows : Int) (hrows : 0 < rows) (hint : rows ≤ Dbl.INT_MAX) :
    Dbl.toInt (Dbl.mul (Dbl.ofRat (13 / 20)) (Dbl.ofInt rows)) =
      some (Dbl.trunc (13 / 20 * (rows : ℚ))) ∧
    0 ≤ Dbl.trunc (13 / 20 * (rows : ℚ)) ∧ Dbl.trunc (13 / 20 * (rows : ℚ)) < rows := by
  unfold Dbl.INT_MAX at hint
  have hr0 : (1 : ℚ) ≤ (rows : ℚ) := by exact_mod_cast hrows
  have hr1 : (rows : ℚ) ≤ 2147483647 := by exact_mod_cast hint
  have hrange : Dbl.INT_MIN ≤ rows ∧ rows ≤ Dbl.INT_MAX := by
    unfold Dbl.INT_MIN Dbl.INT_MAX
    omega
  have hnn : (0 : ℚ) ≤ 13 / 20 * (rows : ℚ) := by positivity
  -- the exact truncation
  have hk : Dbl.trunc (13 / 20 * (rows : ℚ)) = ⌊13 / 20 * (rows : ℚ)⌋ := by
    unfold Dbl.trunc
    rw [if_pos hnn]
  have hk0 : 0 ≤ ⌊13 / 20 * (rows : ℚ)⌋ := Int.floor_nonneg.mpr hnn
  have hk1 : ((⌊13 / 20 * (rows : ℚ)⌋ : Int) : ℚ) ≤ 13 / 20 * (rows : ℚ) := Int.floor_le _
  have hk2 : 13 * rows ≤ 20 * ⌊13 / 20 * (rows : ℚ)⌋ + 19 := by
    have h1 := Int.lt_floor_add_one (13 / 20 * (rows : ℚ))
    have h2 : ((13 * rows : Int) : ℚ) < ((20 * ⌊13 / 20 * (rows : ℚ)⌋ + 20 : Int) : ℚ) := by
      push_cast
      linarith
    have h3 : 13 * rows < 20 * ⌊13 / 20 * (rows : ℚ)⌋ + 20 := by exact_mod_cast h2
    omega
  have hk3 : 13 / 20 * (rows : ℚ) ≤ ((⌊13 / 20 * (rows : ℚ)⌋ : Int) : ℚ) + 19 / 20 := by
    have h2 : ((13 * rows : Int) : ℚ) ≤ ((20 * ⌊13 / 20 * (rows : ℚ)⌋ + 19 : Int) : ℚ) := by
      exact_mod_cast hk2
    push_cast at h2
    linarith
  have hklt : ⌊13 / 20 * (rows : ℚ)⌋ < rows := by
    have h2 : ((⌊13 / 20 * (rows : ℚ)⌋ : Int) : ℚ) < ((rows : Int) : ℚ) := by linarith
    exact_mod_cast h2
  -- the rounded product
  have hq0 : (0 : ℚ) < 5854679515581645 / 9007199254740992 * (rows : ℚ) := by positivity
  have hq1 : 5854679515581645 / 9007199254740992 * (rows : ℚ) =
      13 / 20 * (rows : ℚ) + (rows : ℚ) / 45035996273704960 := by ring
  have hn : (2 : ℚ) ^ (-1022 : Int) ≤ 5854679515581645 / 9007199254740992 * (rows : ℚ) :=
    le_trans (two_pow_neg_le (-1022) (by norm_num)) (by linarith)
  have herr := abs_le.mp (roundMag_err_normal _ hn)
  have e53 : (2 : ℚ) ^ (-53 : Int) = 1 / 9007199254740992 := by norm_num
  rw [e53] at herr
  have hlo : ((⌊13 / 20 * (rows : ℚ)⌋ : Int) : ℚ) ≤
      Dbl.roundMag (5854679515581645 / 9007199254740992 * (rows : ℚ)) :=
    int_le_roundMag _ _ (by linarith) hq0 (by
      have : (2 : ℚ) ^ (53 : Int) = 9007199254740992 := by norm_num
      rw [this]
      linarith)
  have hhi : Dbl.roundMag (5854679515581645 / 9007199254740992 * (rows : ℚ)) <
      ((⌊13 / 20 * (rows : ℚ)⌋ : Int) : ℚ) + 1 := by
    linarith [herr.2]
  have hfin : Dbl.ofRat (5854679515581645 / 9007199254740992 * (rows : ℚ)) =
      Dbl.fin (Dbl.roundMag (5854679515581645 / 9007199254740992 * (rows : ℚ))) := by
    have hov : Dbl.roundMag (5854679515581645 / 9007199254740992 * (rows : ℚ)) <
        (2 : ℚ) ^ (1024 : Nat) := lt_overflow_of_lt _ (by
      have : ((⌊13 / 20 * (rows : ℚ)⌋ : Int) : ℚ) < 2147483647 := by linarith
      norm_num
      linarith)
    unfold Dbl.ofRat
    rw [abs_of_pos hq0, if_neg (not_le.mpr hov), if_pos (le_of_lt hq0)]
  have htr : Dbl.trunc (Dbl.roundMag (5854679515581645 / 9007199254740992 * (rows : ℚ))) =
      ⌊13 / 20 * (rows : ℚ)⌋ := by
    have hR0 : (0 : ℚ) ≤ Dbl.roundMag (5854679515581645 / 9007199254740992 * (rows : ℚ)) :=
      roundMag_nonneg _ (le_of_lt hq0)
    unfold Dbl.trunc
    rw [if_pos hR0, Int.floor_eq_iff]
    exact ⟨hlo, hhi⟩
  refine ⟨?_, by rw [hk]; exact hk0, by rw [hk]; exact hklt⟩
  rw [ofRat_065, ofInt_of_range rows hrange]
  simp only [Dbl.mul]
  rw [hfin]
  show (if Dbl.INT_MIN ≤ Dbl.trunc _ ∧ Dbl.trunc _ ≤ Dbl.INT_MAX then some (Dbl.trunc _)
    else none) = _
  rw [htr, hk, if_pos]
  unfold Dbl.INT_MIN Dbl.INT_MAX
  omega

theorem coord_x_fin (m b Q : ℚ) (y : Int) (hy : Dbl.INT_MIN ≤ y ∧ y ≤ Dbl.INT_MAX)
    (hQ : coord_x (Dbl.fin m) (Dbl.fin b) y = Dbl.fin Q) :
    ∃ S : ℚ, Dbl.ofRat ((y : ℚ) - b) = Dbl.fin S ∧ Dbl.ofRat (S / m) = Dbl.fin Q ∧ m ≠ 0 := by
  have h1 : Dbl.mul (Dbl.fin 1) (Dbl.ofInt y) = Dbl.fin (y : ℚ) := by
    rw [ofInt_of_range _ hy]
    simp only [Dbl.mul, one_mul]
    exact (ofInt_of_range _ hy)
  unfold coord_x at hQ
  rw [h1] at hQ
  simp only [Dbl.sub, Dbl.neg, Dbl.add, ← sub_eq_add_neg] at hQ
  rcases ofRat_cases ((y : ℚ) - b) with h | h | h | h
  · rw [h.2.2] at hQ
    simp only [Dbl.div] at hQ
    split_ifs at hQ
  · rw [h.2.2] at hQ
    simp only [Dbl.div] at hQ
    split_ifs at hQ
  · rw [h.2.2] at hQ ⊢
    simp only [Dbl.div] at hQ
    by_cases hm : m = 0
    · rw [if_pos hm] at hQ
      unfold Dbl.signedInf at hQ
      split_ifs at hQ
    · rw [if_neg hm] at hQ
      exact ⟨_, rfl, hQ, hm⟩
  · rw [h.2.2] at hQ ⊢
    simp only [Dbl.div] at hQ
    by_cases hm : m = 0
    · rw [if_pos hm] at hQ
      unfold Dbl.signedInf at hQ
      split_ifs at hQ
    · rw [if_neg hm] at hQ
      exact ⟨_, rfl, hQ, hm⟩

/-- Two roundings (the difference, then the quotient) keep the `double` quotient
within `2^-51` relative and `2^-1074 * (1 + 1/|m|)` absolute of the exact one. -/
theorem coord_x_err (m s S Q : ℚ) (hm : m ≠ 0) (hS : Dbl.ofRat s = Dbl.fin S)
    (hQ : Dbl.ofRat (S / m) = Dbl.fin Q) :
    |Q - s / m| ≤ (2 : ℚ) ^ (-51 : Int) * |s / m| + (2 : ℚ) ^ (-1074 : Int) * (1 + 1 / |m|) := by
  have h1 := ofRat_fin_err s S hS
  have h2 := ofRat_fin_err (S / m) Q hQ
  have ea : (2 : ℚ) ^ (-53 : Int) = (2 : ℚ) ^ (-51 : Int) / 4 := by norm_num
  have et : (2 : ℚ) ^ (-1075 : Int) = (2 : ℚ) ^ (-1074 : Int) / 2 := by norm_num
  have hA0 : (0 : ℚ) < (2 : ℚ) ^ (-51 : Int) := by positivity
  have hA1 : (2 : ℚ) ^ (-51 : Int) ≤ 1 := by norm_num
  have hT0 : (0 : ℚ) < (2 : ℚ) ^ (-1074 : Int) := by positivity
  rw [ea, et] at h1 h2
  generalize (2 : ℚ) ^ (-51 : Int) = A at h1 h2 hA0 hA1 ⊢
  generalize (2 : ℚ) ^ (-1074 : Int) = T at h1 h2 hT0 ⊢
  have ham : 0 < |m| := abs_pos.mpr hm
  have hW : 0 < 1 / |m| := by positivity
  have hP : 0 ≤ |s / m| := abs_nonneg _
  have hu : |S / m - s / m| ≤ A / 4 * |s / m| + T / 2 * (1 / |m|) := by
    have e : S / m - s / m = (S - s) / m := by ring
    rw [e, abs_div, abs_div]
    have h3 : |S - s| / |m| ≤ (A / 4 * |s| + T / 2) / |m| :=
      div_le_div_of_nonneg_right h1 (le_of_lt ham)
    have e2 : (A / 4 * |s| + T / 2) / |m| = A / 4 * (|s| / |m|) + T / 2 * (1 / |m|) := by ring
    rw [e2] at h3
    exact h3
  have h3 : |S / m| ≤ |s / m| + |S / m - s / m| := by
    have := abs_add (s / m) (S / m - s / m)
    have e : s / m + (S / m - s / m) = S / m := by ring
    rw [e] at this
    exact this
  have h4 : |Q - s / m| ≤ |Q - S / m| + |S / m - s / m| := by
    have := abs_add (Q - S / m) (S / m - s / m)
    have e : Q - S / m + (S / m - s / m) = Q - s / m := by ring
    rw [e] at this
    exact this
  generalize |S / m - s / m| = u at hu h3 h4
  generalize |S / m| = v at h2 h3
  generalize |Q - S / m| = w at h2 h4
  generalize |Q - s / m| = z at h4 ⊢
  generalize |s / m| = P at hP hu h3 ⊢
  generalize 1 / |m| = W at hW hu ⊢
  have hAP : 0 ≤ A * P := mul_nonneg (le_of_lt hA0) hP
  have hTW : 0 ≤ T * W := mul_nonneg (le_of_lt hT0) (le_of_lt hW)
  have hAAP : A * (A * P) ≤ A * P := mul_le_of_le_one_left hAP hA1
  have hATW : A * (T * W) ≤ T * W := mul_le_of_le_one_left hTW hA1
  have hAu : A / 4 * u ≤ A / 4 * (A / 4 * P + T / 2 * W) :=
    mul_le_mul_of_nonneg_left hu (by linarith)
  have hAv : A / 4 * v ≤ A / 4 * (P + u) := mul_le_mul_of_nonneg_left h3 (by linarith)
  nlinarith

/-- The line through two integer points, one pixel row apart or more, against a
line `y = m*x + b`: the slope and intercept of the first differ from `m` and `b` by
at most the stated multiples of the horizontal distances of the two points from the
second line. -/
theorem roundtrip_bounds (m b : ℚ) (x0 y0 x1 y1 : Int) (hm : m ≠ 0) (hy : y0 < y1)
    (hx : x0 ≠ x1) (m' b' : ℚ) (hm' : m' = ((y1 : ℚ) - y0) / ((x1 : ℚ) - x0))
    (hb' : b' = (y1 : ℚ) - m' * x1) :
    m' ≠ 0 ∧ ((y0 : ℚ) - b') / m' = x0 ∧ ((y1 : ℚ) - b') / m' = x1 ∧
    |1 / m' - 1 / m| ≤
      (|(x0 : ℚ) - ((y0 : ℚ) - b) / m| + |(x1 : ℚ) - ((y1 : ℚ) - b) / m|) / ((y1 : ℚ) - y0) ∧
    |m' - m| ≤ |m| * |m'| *
      ((|(x0 : ℚ) - ((y0 : ℚ) - b) / m| + |(x1 : ℚ) - ((y1 : ℚ) - b) / m|) / ((y1 : ℚ) - y0)) ∧
    |b' - b| ≤ |m| * |(x1 : ℚ) - ((y1 : ℚ) - b) / m| + |m' - m| * |(x1 : ℚ)| := by
  have hdy : (0 : ℚ) < (y1 : ℚ) - y0 := by
    have : (y0 : ℚ) < y1 := by exact_mod_cast hy
    linarith
  have hdy' : (y1 : ℚ) - y0 ≠ 0 := ne_of_gt hdy
  have hdx : (x1 : ℚ) - x0 ≠ 0 := by
    intro h0
    apply hx
    have : (x0 : ℚ) = x1 := by linarith
    exact_mod_cast this
  have hm0 : m' ≠ 0 := by
    rw [hm']
    exact div_ne_zero hdy' hdx
  have hinv : 1 / m' - 1 / m =
      (((x1 : ℚ) - ((y1 : ℚ) - b) / m) - ((x0 : ℚ) - ((y0 : ℚ) - b) / m)) / ((y1 : ℚ) - y0) := by
    rw [hm']
    field_simp
    ring
  have hinv_le : |1 / m' - 1 / m| ≤
      (|(x0 : ℚ) - ((y0 : ℚ) - b) / m| + |(x1 : ℚ) - ((y1 : ℚ) - b) / m|) / ((y1 : ℚ) - y0) := by
    rw [hinv, abs_div, abs_of_pos hdy]
    apply div_le_div_of_nonneg_right _ (le_of_lt hdy)
    have := abs_sub ((x1 : ℚ) - ((y1 : ℚ) - b) / m) ((x0 : ℚ) - ((y0 : ℚ) - b) / m)
    linarith
  have hslope : |m' - m| ≤ |m| * |m'| *
      ((|(x0 : ℚ) - ((y0 : ℚ) - b) / m| + |(x1 : ℚ) - ((y1 : ℚ) - b) / m|) / ((y1 : ℚ) - y0)) := by
    have e : m' - m = -(m * m' * (1 / m' - 1 / m)) := by
      field_simp
      ring
    rw [e, abs_neg, abs_mul, abs_mul]
    exact mul_le_mul_of_nonneg_left hinv_le (by positivity)
  refine ⟨hm0, ?_, ?_, hinv_le, hslope, ?_⟩
  · rw [hb', hm']
    field_simp
    ring
  · rw [hb']
    field_simp
  · have e : b' - b = m * (((y1 : ℚ) - b) / m - x1) + (m - m') * x1 := by
      rw [hb']
      field_simp
      ring
    rw [e]
    have h1 := abs_add (m * (((y1 : ℚ) - b) / m - x1)) ((m - m') * x1)
    rw [abs_mul, abs_mul, abs_sub_comm (((y1 : ℚ) - b) / m) x1, abs_sub_comm m m'] at h1
    exact h1

theorem calculate_coord_fin (m b Q0 Q1 : ℚ) (rows cols : Int) (hrows : 0 < rows)
    (hint : rows ≤ Dbl.INT_MAX)
    (hQ0 : coord_x (Dbl.fin m) (Dbl.fin b) (Dbl.trunc (13 / 20 * (rows : ℚ))) = Dbl.fin Q0)
    (h0 : ((Dbl.INT_MIN : Int) : ℚ) - 1 < Q0 ∧ Q0 < ((Dbl.INT_MAX : Int) : ℚ) + 1)
    (hQ1 : coord_x (Dbl.fin m) (Dbl.fin b) rows = Dbl.fin Q1)
    (h1 : ((Dbl.INT_MIN : Int) : ℚ) - 1 < Q1 ∧ Q1 < ((Dbl.INT_MAX : Int) : ℚ) + 1) :
    calculate_coord (Dbl.fin m) (Dbl.fin b) rows cols =
      some ⟨Dbl.trunc Q0, Dbl.trunc (13 / 20 * (rows : ℚ)), Dbl.trunc Q1, rows⟩ := by
  unfold calculate_coord
  rw [(y0_eq rows hrows hint).1]
  simp only [Option.bind_eq_bind, Option.some_bind, hQ0, hQ1]
  rw [toInt_fin_of_range _ h0.1 h0.2, toInt_fin_of_range _ h1.1 h1.2]
  rfl

theorem ofInt_small (n : Nat) (hn : n < 9007199254740992) :
    Dbl.ofInt (no_index (OfNat.ofNat n)) = Dbl.fin (OfNat.ofNat n) := by
  simp only [Dbl.ofInt, Int.cast_ofNat]
  exact ofRat_ofNat n hn

theorem ofRat_ex_s0 :
    Dbl.ofRat (6087492716657577 / 35184372088832) = Dbl.fin (6087492716657577 / 35184372088832) := by
  have h := ofRat_eval_pos (6087492716657577 / 35184372088832) (1 / 35184372088832) 7 6087492716657577
    (by norm_num) (by norm_num) (by norm_num) (by norm_num [Dbl.rne])
    (lt_overflow_of_lt _ (by norm_num))
  norm_num at h ⊢
  exact h

theorem ofRat_ex_q0 :
    Dbl.ofRat (97399883466521232 / 381660985370381) = Dbl.fin (4489525878534963 / 17592186044416) := by
  have h := ofRat_eval_pos (97399883466521232 / 381660985370381) (1 / 35184372088832) 7 8979051757069926
    (by norm_num) (by norm_num) (by norm_num) (by norm_num [Dbl.rne])
    (lt_overflow_of_lt _ (by norm_num))
  norm_num at h ⊢
  exact h

theorem ofRat_ex_s1 :
    Dbl.ofRat (11998467227581353 / 35184372088832) = Dbl.fin (1499808403447669 / 4398046511104) := by
  have h := ofRat_eval_pos (11998467227581353 / 35184372088832) (1 / 17592186044416) 8 5999233613790676
    (by norm_num) (by norm_num) (by norm_num) (by norm_num [Dbl.rne])
    (lt_overflow_of_lt _ (by norm_num))
  norm_num at h ⊢
  exact h

theorem ofRat_ex_q1 :
    Dbl.ofRat (191975475641301632 / 381660985370381) = Dbl.fin (8848869580341247 / 17592186044416) := by
  have h := ofRat_eval_pos (191975475641301632 / 381660985370381) (1 / 17592186044416) 8 8848869580341247
    (by norm_num) (by norm_num) (by norm_num) (by norm_num [Dbl.rne])
    (lt_overflow_of_lt _ (by norm_num))
  norm_num at h ⊢
  exact h

theorem coord_x_eval (m b : ℚ) (n : Nat) (hn : n < 9007199254740992) (hm : m ≠ 0) :
    coord_x (Dbl.fin m) (Dbl.fin b) (no_index (OfNat.ofNat n)) =
      Dbl.div (Dbl.ofRat ((OfNat.ofNat n : ℚ) - b)) (Dbl.fin m) := by
  have h1 : Dbl.mul (Dbl.fin 1) (Dbl.fin (OfNat.ofNat n)) = Dbl.fin (OfNat.ofNat n) := by
    simp only [Dbl.mul, one_mul]
    exact ofRat_ofNat n hn
  simp only [coord_x, ofInt_small n hn, h1, Dbl.sub, Dbl.neg, Dbl.add, ← sub_eq_add_neg]

theorem div_fin_fin (a b : ℚ) (hb : b ≠ 0) :
    Dbl.div (Dbl.fin a) (Dbl.fin b) = Dbl.ofRat (a / b) := by
  simp only [Dbl.div, hb, if_false]

theorem calculate_coord_x0_none (slope intercept : Dbl) (rows cols : Int) (hrows : 0 < rows)
    (hint : rows ≤ Dbl.INT_MAX)
    (h : Dbl.toInt (coord_x slope intercept (Dbl.trunc (13 / 20 * (rows : ℚ)))) = none) :
    calculate_coord slope intercept rows cols = none := by
  unfold calculate_coord
  rw [(y0_eq rows hrows hint).1]
  simp only [Option.bind_eq_bind, Option.some_bind, h, Option.none_bind]

theorem trunc_rows_100 : Dbl.trunc (13 / 20 * ((100 : Int) : ℚ)) = 65 := by
  norm_num [Dbl.trunc]

theorem trunc_rows_480 : Dbl.trunc (13 / 20 * ((480 : Int) : ℚ)) = 312 := by
  norm_num [Dbl.trunc]

theorem ex_range_x0 :
    coord_x (Dbl.fin 1) (Dbl.fin (-3000000000)) 65 = Dbl.fin 3000000065 := by
  rw [coord_x_eval 1 _ 65 (by norm_num) (by norm_num)]
  rw [show ((65 : ℚ) - -3000000000) = 3000000065 by norm_num,
    ofRat_ofNat 3000000065 (by norm_num), div_fin_fin _ _ (by norm_num)]
  rw [show ((3000000065 : ℚ) / 1) = 3000000065 by norm_num,
    ofRat_ofNat 3000000065 (by norm_num)]

theorem ex_range_toInt : Dbl.toInt (Dbl.fin 3000000065) = none := by
  norm_num [Dbl.toInt, Dbl.trunc, Dbl.INT_MIN, Dbl.INT_MAX]

theorem ex_round_x0 :
    coord_x (Dbl.fin (381660985370381 / 562949953421312)) (Dbl.fin (4890031375058007 / 35184372088832)) 312 =
      Dbl.fin (4489525878534963 / 17592186044416) := by
  rw [coord_x_eval _ _ 312 (by norm_num) (by norm_num)]
  rw [show ((312 : ℚ) - (4890031375058007 / 35184372088832)) = (6087492716657577 / 35184372088832) by norm_num,
    ofRat_ex_s0, div_fin_fin _ _ (by norm_num)]
  rw [show ((6087492716657577 / 35184372088832) / (381660985370381 / 562949953421312) : ℚ) =
    (97399883466521232 / 381660985370381) by norm_num, ofRat_ex_q0]

theorem ex_round_x1 :
    coord_x (Dbl.fin (381660985370381 / 562949953421312)) (Dbl.fin (4890031375058007 / 35184372088832)) 480 =
      Dbl.fin (8848869580341247 / 17592186044416) := by
  rw [coord_x_eval _ _ 480 (by norm_num) (by norm_num)]
  rw [show ((480 : ℚ) - (4890031375058007 / 35184372088832)) = (11998467227581353 / 35184372088832) by norm_num,
    ofRat_ex_s1, div_fin_fin _ _ (by norm_num)]
  rw [show ((1499808403447669 / 4398046511104) / (381660985370381 / 562949953421312) : ℚ) =
    (191975475641301632 / 381660985370381) by norm_num, ofRat_ex_q1]

theorem ex_round_coord :
    calculate_coord (Dbl.fin (381660985370381 / 562949953421312)) (Dbl.fin (4890031375058007 / 35184372088832)) 480 640 =
      some ⟨255, 312, 502, 480⟩ := by
  have h := calculate_coord_fin _ _ _ _ 480 640 (by norm_num) (by norm_num [Dbl.INT_MAX])
    (by rw [trunc_rows_480]; exact ex_round_x0) (by norm_num [Dbl.INT_MIN, Dbl.INT_MAX])
    ex_round_x1 (by norm_num [Dbl.INT_MIN, Dbl.INT_MAX])
  have t0 : Dbl.trunc (4489525878534963 / 17592186044416) = 255 := by norm_num [Dbl.trunc]
  have t1 : Dbl.trunc (8848869580341247 / 17592186044416) = 502 := by norm_num [Dbl.trunc]
  rw [h, t0, t1, trunc_rows_480]

theorem ex_trip_x0 :
    coord_x (Dbl.fin 100) (Dbl.fin 0) 65 =
      Dbl.fin (5854679515581645 / 9007199254740992) := by
  rw [coord_x_eval _ _ 65 (by norm_num) (by norm_num)]
  rw [show ((65 : ℚ) - 0) = 65 by norm_num,
    ofRat_ofNat 65 (by norm_num), div_fin_fin _ _ (by norm_num)]
  rw [show ((65 : ℚ) / 100) = 13 / 20 by norm_num, ofRat_065]

theorem ex_trip_x1 : coord_x (Dbl.fin 100) (Dbl.fin 0) 100 = Dbl.fin 1 := by
  rw [coord_x_eval _ _ 100 (by norm_num) (by norm_num)]
  rw [show ((100 : ℚ) - 0) = 100 by norm_num,
    ofRat_ofNat 100 (by norm_num), div_fin_fin _ _ (by norm_num)]
  rw [show ((100 : ℚ) / 100) = 1 by norm_num, ofRat_one]

theorem ex_trip_coord :
    calculate_coord (Dbl.fin 100) (Dbl.fin 0) 100 200 = some ⟨0, 65, 1, 100⟩ := by
  have h := calculate_coord_fin _ _ _ _ 100 200 (by norm_num) (by norm_num [Dbl.INT_MAX])
    (by rw [trunc_rows_100]; exact ex_trip_x0) (by norm_num [Dbl.INT_MIN, Dbl.INT_MAX])
    ex_trip_x1 (by norm_num [Dbl.INT_MIN, Dbl.INT_MAX])
  have t0 : Dbl.trunc (5854679515581645 / 9007199254740992) = 0 := by norm_num [Dbl.trunc]
  have t1 : Dbl.trunc 1 = 1 := by norm_num [Dbl.trunc]
  rw [h, t0, t1, trunc_rows_100]

theorem ofRat_ex_tenth_x0 :
    Dbl.ofRat (36028797018963968 / 3602879701896397) = Dbl.fin 10 := by
  have h := ofRat_eval_pos (36028797018963968 / 3602879701896397) (1 / 562949953421312) 3
    5629499534213120 (by norm_num) (by norm_num) (by norm_num) (by norm_num [Dbl.rne])
    (lt_overflow_of_lt _ (by norm_num))
  norm_num at h ⊢
  exact h

theorem ofRat_ex_tenth_x1 :
    Dbl.ofRat (1297036692682702848 / 3602879701896397) = Dbl.fin 360 := by
  have h := ofRat_eval_pos (1297036692682702848 / 3602879701896397) (1 / 17592186044416) 8
    6333186975989760 (by norm_num) (by norm_num) (by norm_num) (by norm_num [Dbl.rne])
    (lt_overflow_of_lt _ (by norm_num))
  norm_num at h ⊢
  exact h

theorem ex_tenth_x0 :
    coord_x (Dbl.fin (3602879701896397 / 36028797018963968)) (Dbl.fin 64) 65 = Dbl.fin 10 := by
  rw [coord_x_eval _ _ 65 (by norm_num) (by norm_num)]
  rw [show ((65 : ℚ) - 64) = 1 by norm_num, ofRat_one, div_fin_fin _ _ (by norm_num)]
  rw [show ((1 : ℚ) / (3602879701896397 / 36028797018963968)) =
    36028797018963968 / 3602879701896397 by norm_num, ofRat_ex_tenth_x0]

theorem ex_tenth_x1 :
    coord_x (Dbl.fin (3602879701896397 / 36028797018963968)) (Dbl.fin 64) 100 = Dbl.fin 360 := by
  rw [coord_x_eval _ _ 100 (by norm_num) (by norm_num)]
  rw [show ((100 : ℚ) - 64) = 36 by norm_num, ofRat_ofNat 36 (by norm_num),
    div_fin_fin _ _ (by norm_num)]
  rw [show ((36 : ℚ) / (3602879701896397 / 36028797018963968)) =
    1297036692682702848 / 3602879701896397 by norm_num, ofRat_ex_tenth_x1]

theorem ex_tenth_coord :
    calculate_coord (Dbl.fin (3602879701896397 / 36028797018963968)) (Dbl.fin 64) 100 200 =
      some ⟨10, 65, 360, 100⟩ := by
  have h := calculate_coord_fin _ _ _ _ 100 200 (by norm_num) (by norm_num [Dbl.INT_MAX])
    (by rw [trunc_rows_100]; exact ex_tenth_x0) (by norm_num [Dbl.INT_MIN, Dbl.INT_MAX])
    ex_tenth_x1 (by norm_num [Dbl.INT_MIN, Dbl.INT_MAX])
  have t0 : Dbl.trunc 10 = 10 := by norm_num [Dbl.trunc]
  have t1 : Dbl.trunc 360 = 360 := by norm_num [Dbl.trunc]
  rw [h, t0, t1, trunc_rows_100]

/-- C8, as stated, fails, in three ways.  Range: for `m = 1`, `b = -3000000000` and 100
rows the quotient `3000000065` does not fit an `int` and no endpoints are returned.
Rounding: for `m` the `double` nearest to `0.1`, `b = 64` and 100 rows, the returned
`x0` is `10` while the truncation of the exact `(65 - 64)/m` is `9`; and for the
`double`s `m = 381660985370381 / 2^49` and `b = 4890031375058007 / 2^45` (the slope
and intercept of the segment `(444,440,326,360)`) and 480 rows, the returned `x1` is
`502` while the exact `(480 - b)/m` is above `503`, so `x1` is not its truncation and
is more than `1` away from it.  Round trip: for `m = 100`, `b = 0` and 100 rows the
returned points are `(0, 65)` and `(1, 100)`, whose line has slope `35` and intercept
`65`. -/
theorem calculate_coord_counterexamples :
    calculate_coord (Dbl.fin 1) (Dbl.fin (-3000000000)) 100 200 = none ∧
    (calculate_coord (Dbl.fin (3602879701896397 / 36028797018963968)) (Dbl.fin 64) 100 200 =
        some ⟨10, 65, 360, 100⟩ ∧
      Dbl.trunc (((65 : ℚ) - 64) / (3602879701896397 / 36028797018963968)) = 9) ∧
    (calculate_coord (Dbl.fin (381660985370381 / 562949953421312))
        (Dbl.fin (4890031375058007 / 35184372088832)) 480 640 =
        some ⟨255, 312, 502, 480⟩ ∧
      Dbl.trunc (((480 : ℚ) - (4890031375058007 / 35184372088832)) /
        (381660985370381 / 562949953421312)) = 503 ∧
      1 < |(502 : ℚ) - ((480 : ℚ) - (4890031375058007 / 35184372088832)) /
        (381660985370381 / 562949953421312)|) ∧
    (calculate_coord (Dbl.fin 100) (Dbl.fin 0) 100 200 = some ⟨0, 65, 1, 100⟩ ∧
      ((100 : ℚ) - 65) / (1 - 0) = 35 ∧ (100 : ℚ) - 35 * 1 = 65 ∧
      1 ≤ |(35 : ℚ) - 100| ∧ 1 ≤ |(65 : ℚ) - 0|) := by
  refine ⟨?_, ⟨ex_tenth_coord, ?_⟩, ⟨ex_round_coord, ?_, ?_⟩, ex_trip_coord, by norm_num,
    by norm_num, by norm_num, by norm_num⟩
  · exact calculate_coord_x0_none _ _ 100 200 (by norm_num) (by norm_num [Dbl.INT_MAX])
      (by rw [trunc_rows_100, ex_range_x0, ex_range_toInt])
  · norm_num [Dbl.trunc]
  · norm_num [Dbl.trunc]
  · norm_num [abs_lt, lt_abs]

/-- C8, amended: for a non-zero slope `m`, an intercept `b` and an `int` number of
rows `rows > 0` such that the two `double` quotients `Q(y) = (1.0*y - b)/m`, at
`y = y0` and `y = rows`, are finite and lie strictly between `INT_MIN - 1` and
`INT_MAX + 1`, `calculate_coord` returns `(x0, y0, x1, y1)` with
`y0 = trunc(0.65*rows)`, `y1 = rows` and each `x` the truncation toward zero of
`Q(y)`.  So `|x - Q(y)| < 1`; `Q(y)` is the exact `(y - b)/m` up to two roundings,
`|Q(y) - (y - b)/m| ≤ 2^-51 * |(y - b)/m| + 2^-1074 * (1 + 1/|m|)`; and
`|x - (y - b)/m|` is below `1` plus that bound.  When `x0 ≠ x1`, the slope `m'` and
intercept `b'` of the line through the two returned points satisfy `m' ≠ 0`, the line
passes through both points, and with `d0 = |x0 - (y0 - b)/m|`,
`d1 = |x1 - (y1 - b)/m|`: `|1/m' - 1/m| ≤ (d0 + d1)/(y1 - y0)`,
`|m' - m| ≤ |m|*|m'|*(d0 + d1)/(y1 - y0)` and `|b' - b| ≤ |m|*d1 + |m' - m|*|x1|`. -/
theorem calculate_coord_roundtrip (m b Q0 Q1 : ℚ) (rows cols : Int) (hm : m ≠ 0)
    (hrows : 0 < rows) (hint : rows ≤ Dbl.INT_MAX)
    (hQ0 : coord_x (Dbl.fin m) (Dbl.fin b) (Dbl.trunc (13 / 20 * (rows : ℚ))) = Dbl.fin Q0)
    (h0 : ((Dbl.INT_MIN : Int) : ℚ) - 1 < Q0 ∧ Q0 < ((Dbl.INT_MAX : Int) : ℚ) + 1)
    (hQ1 : coord_x (Dbl.fin m) (Dbl.fin b) rows = Dbl.fin Q1)
    (h1 : ((Dbl.INT_MIN : Int) : ℚ) - 1 < Q1 ∧ Q1 < ((Dbl.INT_MAX : Int) : ℚ) + 1) :
    ∃ x0 y0 x1 : Int,
      calculate_coord (Dbl.fin m) (Dbl.fin b) rows cols = some ⟨x0, y0, x1, rows⟩ ∧
      y0 = Dbl.trunc (13 / 20 * (rows : ℚ)) ∧ x0 = Dbl.trunc Q0 ∧ x1 = Dbl.trunc Q1 ∧
      |(x0 : ℚ) - Q0| < 1 ∧ |(x1 : ℚ) - Q1| < 1 ∧
      |Q0 - ((y0 : ℚ) - b) / m| ≤
        (2 : ℚ) ^ (-51 : Int) * |((y0 : ℚ) - b) / m| + (2 : ℚ) ^ (-1074 : Int) * (1 + 1 / |m|) ∧
      |Q1 - ((rows : ℚ) - b) / m| ≤
        (2 : ℚ) ^ (-51 : Int) * |((rows : ℚ) - b) / m| +
          (2 : ℚ) ^ (-1074 : Int) * (1 + 1 / |m|) ∧
      |(x0 : ℚ) - ((y0 : ℚ) - b) / m| <
        1 + ((2 : ℚ) ^ (-51 : Int) * |((y0 : ℚ) - b) / m| +
          (2 : ℚ) ^ (-1074 : Int) * (1 + 1 / |m|)) ∧
      |(x1 : ℚ) - ((rows : ℚ) - b) / m| <
        1 + ((2 : ℚ) ^ (-51 : Int) * |((rows : ℚ) - b) / m| +
          (2 : ℚ) ^ (-1074 : Int) * (1 + 1 / |m|)) ∧
      (x0 ≠ x1 → ∀ m' b' : ℚ,
        m' = ((rows : ℚ) - y0) / ((x1 : ℚ) - x0) → b' = (rows : ℚ) - m' * x1 →
        m' ≠ 0 ∧ ((y0 : ℚ) - b') / m' = x0 ∧ ((rows : ℚ) - b') / m' = x1 ∧
        |1 / m' - 1 / m| ≤
          (|(x0 : ℚ) - ((y0 : ℚ) - b) / m| + |(x1 : ℚ) - ((rows : ℚ) - b) / m|) /
            ((rows : ℚ) - y0) ∧
        |m' - m| ≤ |m| * |m'| *
          ((|(x0 : ℚ) - ((y0 : ℚ) - b) / m| + |(x1 : ℚ) - ((rows : ℚ) - b) / m|) /
            ((rows : ℚ) - y0)) ∧
        |b' - b| ≤ |m| * |(x1 : ℚ) - ((rows : ℚ) - b) / m| + |m' - m| * |(x1 : ℚ)|) := by
  obtain ⟨_, hy0a, hy0b⟩ := y0_eq rows hrows hint
  have hyr : Dbl.INT_MIN ≤ Dbl.trunc (13 / 20 * (rows : ℚ)) ∧
      Dbl.trunc (13 / 20 * (rows : ℚ)) ≤ Dbl.INT_MAX := by
    unfold Dbl.INT_MIN
    constructor <;> omega
  have hrr : Dbl.INT_MIN ≤ rows ∧ rows ≤ Dbl.INT_MAX := by
    unfold Dbl.INT_MIN
    constructor <;> omega
  obtain ⟨S0, hS0, hq0, _⟩ := coord_x_fin m b Q0 _ hyr hQ0
  obtain ⟨S1, hS1, hq1, _⟩ := coord_x_fin m b Q1 _ hrr hQ1
  have e0 := coord_x_err m _ S0 Q0 hm hS0 hq0
  have e1 := coord_x_err m _ S1 Q1 hm hS1 hq1
  have t0 := trunc_abs_sub_lt_one Q0
  have t1 := trunc_abs_sub_lt_one Q1
  refine ⟨Dbl.trunc Q0, Dbl.trunc (13 / 20 * (rows : ℚ)), Dbl.trunc Q1,
    calculate_coord_fin m b Q0 Q1 rows cols hrows hint hQ0 h0 hQ1 h1, rfl, rfl, rfl, t0, t1,
    e0, e1, ?_, ?_, ?_⟩
  · have h := abs_add ((Dbl.trunc Q0 : ℚ) - Q0)
      (Q0 - ((Dbl.trunc (13 / 20 * (rows : ℚ)) : ℚ) - b) / m)
    rw [sub_add_sub_cancel] at h
    linarith
  · have h := abs_add ((Dbl.trunc Q1 : ℚ) - Q1) (Q1 - ((rows : ℚ) - b) / m)
    rw [sub_add_sub_cancel] at h
    linarith
  · intro hx m' b' hm' hb'
    exact roundtrip_bounds m b _ _ _ rows hm hy0b hx m' b' hm' hb'

/-- C8, at slope 1/2, intercept 10 and a 100 by 200 frame: the endpoints are
`(110, 65)` and `(180, 100)`. -/
theorem calculate_coord_roundtrip_witness :
    calculate_coord (Dbl.fin (1 / 2)) (Dbl.fin 10) 100 200 = some ⟨110, 65, 180, 100⟩ := by
  have ht : Dbl.trunc (13 / 20 * ((100 : Int) : ℚ)) = 65 := by norm_num [Dbl.trunc]
  have hQ0 : coord_x (Dbl.fin (1 / 2)) (Dbl.fin 10) (Dbl.trunc (13 / 20 * ((100 : Int) : ℚ))) =
      Dbl.fin 110 := by
    rw [ht]
    simp only [coord_x, ofInt_small 65 (by norm_num)]
    norm_num [Dbl.mul, ofRat_ofNat]
    norm_num [Dbl.sub, Dbl.neg, Dbl.add, ofRat_ofNat]
    norm_num [Dbl.div, ofRat_ofNat]
  have hQ1 : coord_x (Dbl.fin (1 / 2)) (Dbl.fin 10) 100 = Dbl.fin 180 := by
    simp only [coord_x, ofInt_small 100 (by norm_num)]
    norm_num [Dbl.mul, ofRat_ofNat]
    norm_num [Dbl.sub, Dbl.neg, Dbl.add, ofRat_ofNat]
    norm_num [Dbl.div, ofRat_ofNat]
  obtain ⟨x0, y0, x1, hc, hy0, hx0, hx1, -⟩ :=
    calculate_coord_roundtrip (1 / 2) 10 110 180 100 200 (by norm_num) (by norm_num)
      (by norm_num [Dbl.INT_MAX]) hQ0 (by norm_num [Dbl.INT_MIN, Dbl.INT_MAX]) hQ1
      (by norm_num [Dbl.INT_MIN, Dbl.INT_MAX])
  have e1 : y0 = 65 := by rw [hy0, ht]
  have e2 : x0 = 110 := by
    rw [hx0]
    norm_num [Dbl.trunc]
  have e3 : x1 = 180 := by
    rw [hx1]
    norm_num [Dbl.trunc]
  rw [hc, e1, e2, e3]

end ImageOCV
